import Mathlib

/-!
Verification of the LRU cache engine of `skantay/lru-api`
(`internal/cache/cache.go`) and the service layer (`internal/service/service.go`).

The Go engine keeps a `map[string]*node` index together with a doubly linked
recency list threaded through heap-allocated `node` objects.  We embed the
mutable heap explicitly: pointers are natural numbers, the heap is an
association list from pointers to node records, and every Go statement that
reads or writes through a pointer becomes a lookup or an update of that
association list at the point where the statement executes.
-/

set_option maxHeartbeats 1000000

namespace LruApi

/-! ### Association-list maps

These model both Go maps (`map[string]*node`) and the addressable memory that
Go pointers point into.  `mapPut` replaces the first binding of the key (or
appends a new binding), `mapDel` removes every binding of the key, and
`mapGet` returns the first binding. -/

def mapGet {κ α : Type} [DecidableEq κ] : List (κ × α) → κ → Option α
  | [], _ => none
  | (k, v) :: rest, q => if k = q then some v else mapGet rest q

def mapPut {κ α : Type} [DecidableEq κ] : List (κ × α) → κ → α → List (κ × α)
  | [], q, w => [(q, w)]
  | (k, v) :: rest, q, w => if k = q then (q, w) :: rest else (k, v) :: mapPut rest q w

def mapDel {κ α : Type} [DecidableEq κ] : List (κ × α) → κ → List (κ × α)
  | [], _ => []
  | (k, v) :: rest, q => if k = q then mapDel rest q else (k, v) :: mapDel rest q

/-- Distinctness of the keys of an association list (Go maps always have it). -/
def keysDistinct {κ α : Type} (h : List (κ × α)) : Prop :=
  h.Pairwise (fun a b => a.1 ≠ b.1)

instance {κ α : Type} [DecidableEq κ] (h : List (κ × α)) :
    Decidable (keysDistinct h) := by
  unfold keysDistinct; infer_instance

theorem mapGet_cons_eq {κ α : Type} [DecidableEq κ] (k : κ) (v : α)
    (rest : List (κ × α)) : mapGet ((k, v) :: rest) k = some v := by
  simp [mapGet]

theorem mapGet_cons_ne {κ α : Type} [DecidableEq κ] {k q : κ} (hkq : k ≠ q) (v : α)
    (rest : List (κ × α)) : mapGet ((k, v) :: rest) q = mapGet rest q := by
  simp [mapGet, hkq]

theorem mapPut_cons_eq {κ α : Type} [DecidableEq κ] (k : κ) (v w : α)
    (rest : List (κ × α)) : mapPut ((k, v) :: rest) k w = (k, w) :: rest := by
  simp [mapPut]

theorem mapPut_cons_ne {κ α : Type} [DecidableEq κ] {k q : κ} (hkq : k ≠ q) (v w : α)
    (rest : List (κ × α)) :
    mapPut ((k, v) :: rest) q w = (k, v) :: mapPut rest q w := by
  simp [mapPut, hkq]

theorem mapDel_cons_eq {κ α : Type} [DecidableEq κ] (k : κ) (v : α)
    (rest : List (κ × α)) : mapDel ((k, v) :: rest) k = mapDel rest k := by
  simp [mapDel]

theorem mapDel_cons_ne {κ α : Type} [DecidableEq κ] {k q : κ} (hkq : k ≠ q) (v : α)
    (rest : List (κ × α)) : mapDel ((k, v) :: rest) q = (k, v) :: mapDel rest q := by
  simp [mapDel, hkq]

theorem keysDistinct_cons {κ α : Type} {k : κ} {v : α} {rest : List (κ × α)} :
    keysDistinct ((k, v) :: rest) ↔ (∀ kv ∈ rest, k ≠ kv.1) ∧ keysDistinct rest := by
  simp [keysDistinct, List.pairwise_cons]

theorem mapGet_mapPut {κ α : Type} [DecidableEq κ] (h : List (κ × α)) (q : κ) (w : α)
    (r : κ) : mapGet (mapPut h q w) r = if q = r then some w else mapGet h r := by
  induction h with
  | nil => simp [mapPut, mapGet]
  | cons kv rest ih =>
    obtain ⟨k, v⟩ := kv
    by_cases hkq : k = q
    · subst hkq
      by_cases hqr : k = r
      · subst hqr
        rw [mapPut_cons_eq, mapGet_cons_eq, if_pos rfl]
      · rw [mapPut_cons_eq, mapGet_cons_ne hqr, mapGet_cons_ne hqr, if_neg hqr]
    · by_cases hkr : k = r
      · subst hkr
        have hqk : q ≠ k := fun hh => hkq hh.symm
        rw [mapPut_cons_ne hkq, mapGet_cons_eq, mapGet_cons_eq, if_neg hqk]
      · rw [mapPut_cons_ne hkq, mapGet_cons_ne hkr, mapGet_cons_ne hkr, ih]

theorem mapGet_mapDel {κ α : Type} [DecidableEq κ] (h : List (κ × α)) (q : κ)
    (r : κ) : mapGet (mapDel h q) r = if q = r then none else mapGet h r := by
  induction h with
  | nil => simp [mapDel, mapGet]
  | cons kv rest ih =>
    obtain ⟨k, v⟩ := kv
    by_cases hkq : k = q
    · subst hkq
      by_cases hqr : k = r
      · subst hqr
        rw [mapDel_cons_eq, ih]
        simp
      · rw [mapDel_cons_eq, ih, if_neg hqr, if_neg hqr, mapGet_cons_ne hqr]
    · by_cases hkr : k = r
      · subst hkr
        have hqk : q ≠ k := fun hh => hkq hh.symm
        rw [mapDel_cons_ne hkq, mapGet_cons_eq, mapGet_cons_eq, if_neg hqk]
      · rw [mapDel_cons_ne hkq, mapGet_cons_ne hkr, ih, mapGet_cons_ne hkr]

theorem mapGet_eq_some_mem {κ α : Type} [DecidableEq κ] {h : List (κ × α)} {q : κ}
    {w : α} (hg : mapGet h q = some w) : (q, w) ∈ h := by
  induction h with
  | nil => simp [mapGet] at hg
  | cons kv rest ih =>
    obtain ⟨k, v⟩ := kv
    by_cases hkq : k = q
    · subst hkq
      rw [mapGet_cons_eq] at hg
      have hvw : v = w := Option.some.inj hg
      rw [← hvw]
      exact List.mem_cons_self _ _
    · rw [mapGet_cons_ne hkq] at hg
      exact List.mem_cons_of_mem _ (ih hg)

theorem mapGet_eq_none_iff {κ α : Type} [DecidableEq κ] {h : List (κ × α)} {q : κ} :
    mapGet h q = none ↔ ∀ kv ∈ h, kv.1 ≠ q := by
  induction h with
  | nil => simp [mapGet]
  | cons kv rest ih =>
    obtain ⟨k, v⟩ := kv
    by_cases hkq : k = q
    · subst hkq
      rw [mapGet_cons_eq]
      simp only [List.mem_cons]
      constructor
      · intro hc; exact absurd hc (by simp)
      · intro hall
        exact absurd rfl (hall (k, v) (Or.inl rfl))
    · rw [mapGet_cons_ne hkq, ih]
      constructor
      · intro hall kv' hm
        rcases List.mem_cons.mp hm with hkv | hm'
        · rw [hkv]; exact hkq
        · exact hall kv' hm'
      · intro hall kv' hm
        exact hall kv' (List.mem_cons_of_mem _ hm)

theorem mem_mapDel {κ α : Type} [DecidableEq κ] {h : List (κ × α)} {q : κ}
    {kv : κ × α} : kv ∈ mapDel h q ↔ kv ∈ h ∧ kv.1 ≠ q := by
  induction h with
  | nil => simp [mapDel]
  | cons kv' rest ih =>
    obtain ⟨k, v⟩ := kv'
    by_cases hkq : k = q
    · subst hkq
      rw [mapDel_cons_eq, ih]
      constructor
      · rintro ⟨hm, hne⟩; exact ⟨List.mem_cons_of_mem _ hm, hne⟩
      · rintro ⟨hor, hne⟩
        rcases List.mem_cons.mp hor with hkv | hm
        · exact absurd (by rw [hkv]) hne
        · exact ⟨hm, hne⟩
    · rw [mapDel_cons_ne hkq]
      constructor
      · intro hm
        rcases List.mem_cons.mp hm with hkv | hm'
        · refine ⟨List.mem_cons.mpr (Or.inl hkv), ?_⟩
          rw [hkv]; exact hkq
        · rcases ih.mp hm' with ⟨hin, hne⟩
          exact ⟨List.mem_cons_of_mem _ hin, hne⟩
      · rintro ⟨hor, hne⟩
        rcases List.mem_cons.mp hor with hkv | hm
        · exact List.mem_cons.mpr (Or.inl hkv)
        · exact List.mem_cons_of_mem _ (ih.mpr ⟨hm, hne⟩)

theorem mem_mapPut {κ α : Type} [DecidableEq κ] {h : List (κ × α)} {q : κ} {w : α}
    {kv : κ × α} (hm : kv ∈ mapPut h q w) : kv ∈ h ∨ kv = (q, w) := by
  induction h with
  | nil => exact Or.inr (by simpa [mapPut] using hm)
  | cons kv' rest ih =>
    obtain ⟨k, v⟩ := kv'
    by_cases hkq : k = q
    · subst hkq
      rw [mapPut_cons_eq] at hm
      rcases List.mem_cons.mp hm with hkv | hm'
      · exact Or.inr hkv
      · exact Or.inl (List.mem_cons_of_mem _ hm')
    · rw [mapPut_cons_ne hkq] at hm
      rcases List.mem_cons.mp hm with hkv | hm'
      · exact Or.inl (by simp [hkv])
      · rcases ih hm' with hin | hkv
        · exact Or.inl (List.mem_cons_of_mem _ hin)
        · exact Or.inr hkv

theorem mapDel_sublist {κ α : Type} [DecidableEq κ] (h : List (κ × α)) (q : κ) :
    (mapDel h q).Sublist h := by
  induction h with
  | nil => simp [mapDel]
  | cons kv rest ih =>
    obtain ⟨k, v⟩ := kv
    by_cases hkq : k = q
    · subst hkq
      rw [mapDel_cons_eq]
      exact List.Sublist.cons (k, v) ih
    · rw [mapDel_cons_ne hkq]
      exact List.Sublist.cons₂ (k, v) ih

theorem keysDistinct_mapDel {κ α : Type} [DecidableEq κ] {h : List (κ × α)} (q : κ)
    (hd : keysDistinct h) : keysDistinct (mapDel h q) :=
  hd.sublist (mapDel_sublist h q)

theorem keysDistinct_mapPut {κ α : Type} [DecidableEq κ] {h : List (κ × α)} {q : κ}
    {w : α} (hd : keysDistinct h) : keysDistinct (mapPut h q w) := by
  induction h with
  | nil => simp [mapPut, keysDistinct]
  | cons kv rest ih =>
    obtain ⟨k, v⟩ := kv
    rcases keysDistinct_cons.mp hd with ⟨hhead, htail⟩
    by_cases hkq : k = q
    · subst hkq
      rw [mapPut_cons_eq]
      exact keysDistinct_cons.mpr ⟨hhead, htail⟩
    · rw [mapPut_cons_ne hkq]
      refine keysDistinct_cons.mpr ⟨?_, ih htail⟩
      intro kv' hm
      rcases mem_mapPut hm with hin | hkv
      · exact hhead kv' hin
      · rw [hkv]; exact hkq

theorem mapDel_eq_self {κ α : Type} [DecidableEq κ] {h : List (κ × α)} {q : κ}
    (hnone : ∀ kv ∈ h, kv.1 ≠ q) : mapDel h q = h := by
  induction h with
  | nil => simp [mapDel]
  | cons kv rest ih =>
    obtain ⟨k, v⟩ := kv
    have hk : k ≠ q := hnone (k, v) (List.mem_cons_self _ _)
    rw [mapDel_cons_ne hk, ih (fun kv' hm => hnone kv' (List.mem_cons_of_mem _ hm))]

theorem mapDel_length {κ α : Type} [DecidableEq κ] {h : List (κ × α)} {q : κ} {w : α}
    (hd : keysDistinct h) (hg : mapGet h q = some w) :
    (mapDel h q).length + 1 = h.length := by
  induction h with
  | nil => simp [mapGet] at hg
  | cons kv rest ih =>
    obtain ⟨k, v⟩ := kv
    rcases keysDistinct_cons.mp hd with ⟨hhead, htail⟩
    by_cases hkq : k = q
    · subst hkq
      have hself : mapDel rest k = rest :=
        mapDel_eq_self (fun kv' hm => fun hc => hhead kv' hm hc.symm)
      rw [mapDel_cons_eq, hself]
      simp
    · rw [mapGet_cons_ne hkq] at hg
      rw [mapDel_cons_ne hkq, List.length_cons, List.length_cons, ← ih htail hg]

theorem mapPut_length_of_some {κ α : Type} [DecidableEq κ] {h : List (κ × α)} {q : κ}
    {w' : α} (hg : mapGet h q = some w') (w : α) :
    (mapPut h q w).length = h.length := by
  induction h with
  | nil => simp [mapGet] at hg
  | cons kv rest ih =>
    obtain ⟨k, v⟩ := kv
    by_cases hkq : k = q
    · subst hkq; rw [mapPut_cons_eq]; simp
    · rw [mapGet_cons_ne hkq] at hg
      rw [mapPut_cons_ne hkq, List.length_cons, List.length_cons, ih hg]

theorem mapPut_length_of_none {κ α : Type} [DecidableEq κ] {h : List (κ × α)} {q : κ}
    (hg : mapGet h q = none) (w : α) :
    (mapPut h q w).length = h.length + 1 := by
  induction h with
  | nil => simp [mapPut]
  | cons kv rest ih =>
    obtain ⟨k, v⟩ := kv
    by_cases hkq : k = q
    · subst hkq; rw [mapGet_cons_eq] at hg; exact absurd hg (by simp)
    · rw [mapGet_cons_ne hkq] at hg
      rw [mapPut_cons_ne hkq, List.length_cons, List.length_cons, ih hg]

/-! ### Data model

Translated from `internal/cache/cache.go`.

* `node` (lines 15-20): pointers `prev`/`next` become `Option Nat` (nil =
  `none`), `value interface\x7b\x7d` becomes an opaque type parameter `Val`,
  `ttl time.Time` becomes an `Int` instant (the zero `time.Time` is `0`).
* `LRUCache` (lines 22-28): `len, cap uint` become `Nat` reduced mod `2^64`
  where the source can overflow; the `sync.Mutex` serialises operations, so a
  sequential state-transformer semantics is the faithful embedding; `values
  map[string]*node` is the association list `values : List (String × Nat)`
  mapping keys to pointers; the addressable memory is `heap`, and `nextAlloc`
  is the allocator (fresh pointers for `&node\x7b...\x7d` literals).
* each operation takes the caller's context as `Ctx`: `done1` is whether
  `ctx.Done()` is already closed at the moment the operation is entered, and
  `done2` whether it is closed at the moment just after the mutex is acquired
  (the signal can flip between the two while the caller waits for the lock).
  A `select` with a `default` branch at a given program point reads the
  corresponding field. -/

/-- `uint` wrap-around modulus. -/
def wordSize : Nat := 2 ^ 64

structure Node (Val : Type) where
  prev : Option Nat
  next : Option Nat
  value : Val
  key : String
  ttl : Int
deriving DecidableEq

instance {Val : Type} [Inhabited Val] : Inhabited (Node Val) :=
  ⟨⟨none, none, default, "", 0⟩⟩

/-- Cancellation token: the state of `ctx.Done()` sampled at the two program
points where an operation of the source may consult it. -/
structure Ctx where
  done1 : Bool
  done2 : Bool
deriving DecidableEq

/-- The error values of the engine: `ErrKeyDoesNotExist`, `ErrInvalidCacheSize`
(cache.go lines 10-13) and the `ctx.Err()` condition
(`context.Canceled` / `context.DeadlineExceeded`). -/
inductive Err where
  | keyDoesNotExist
  | invalidCacheSize
  | contextDone
deriving DecidableEq

structure LRUCache (Val : Type) where
  defaultTTL : Int
  len : Nat
  cap : Nat
  values : List (String × Nat)
  heap : List (Nat × Node Val)
  nextAlloc : Nat
  most : Option Nat
  least : Option Nat
deriving DecidableEq

variable {Val : Type}

/-- Read a node through a pointer (`*p`).  The source only dereferences
pointers that are allocated; on a dangling pointer we return a default node. -/
def derefH [Inhabited Val] (h : List (Nat × Node Val)) (p : Nat) : Node Val :=
  (mapGet h p).getD default

def deref [Inhabited Val] (l : LRUCache Val) (p : Nat) : Node Val :=
  derefH l.heap p

/-- Write one field of the node a pointer addresses (`p.field = x`). -/
def updNode [Inhabited Val] (l : LRUCache Val) (p : Nat) (f : Node Val → Node Val) :
    LRUCache Val :=
  { l with heap := mapPut l.heap p (f (deref l p)) }

def setPrevPtr [Inhabited Val] (l : LRUCache Val) (p : Nat) (x : Option Nat) :
    LRUCache Val :=
  updNode l p (fun n => { n with prev := x })

def setNextPtr [Inhabited Val] (l : LRUCache Val) (p : Nat) (x : Option Nat) :
    LRUCache Val :=
  updNode l p (fun n => { n with next := x })

/-! ### The operations (cache.go) -/

/-- `New` (cache.go lines 30-44). -/
def New (Val : Type) (cacheSize : Nat) (ttl : Int) : Except Err (LRUCache Val) :=
  if cacheSize = 0 then .error .invalidCacheSize
  else .ok { defaultTTL := ttl, len := 0, cap := cacheSize, values := [],
             heap := [], nextAlloc := 0, most := none, least := none }

/-- `updateNode` (cache.go lines 174-193), with `node` the pointer `p`.
Each Go statement re-reads the fields it mentions from the current memory. -/
def updateNode [Inhabited Val] (l0 : LRUCache Val) (p : Nat) : LRUCache Val :=
  if some p = l0.most then l0
  else
    let l1 := match (deref l0 p).prev with
      | some q => setNextPtr l0 q (deref l0 p).next
      | none => l0
    let l2 := match (deref l1 p).next with
      | some r => setPrevPtr l1 r (deref l1 p).prev
      | none => l1
    let l3 := if some p = l2.least then { l2 with least := (deref l2 p).prev } else l2
    let l4 := setPrevPtr l3 p none
    let l5 := setNextPtr l4 p l4.most
    let l6 := match l5.most with
      | some m => setPrevPtr l5 m (some p)
      | none => l5
    { l6 with most := some p }

/-- `evictNode` (cache.go lines 195-212).  `l.len--` on a `uint` wraps mod
`2^64`. -/
def evictNode [Inhabited Val] (l0 : LRUCache Val) (p : Nat) : LRUCache Val :=
  let l1 := match (deref l0 p).prev with
    | some q => setNextPtr l0 q (deref l0 p).next
    | none => l0
  let l2 := match (deref l1 p).next with
    | some r => setPrevPtr l1 r (deref l1 p).prev
    | none => l1
  let l3 := if l2.most = some p then { l2 with most := (deref l2 p).next } else l2
  let l4 := if l3.least = some p then { l3 with least := (deref l3 p).prev } else l3
  { l4 with values := mapDel l4.values (deref l4 p).key,
            len := (l4.len + (wordSize - 1)) % wordSize }

/-- `createNode` (cache.go lines 214-242), with the new node already allocated
at pointer `p` (done at the `&node\x7b...\x7d` literal in `Put`). -/
def createNode [Inhabited Val] (l0 : LRUCache Val) (key : String) (p : Nat) :
    LRUCache Val :=
  let l1 := match l0.most with
    | some m => setPrevPtr l0 m (some p)
    | none => l0
  let l2 := { l1 with most := some p }
  let l3 := if l2.least = none then { l2 with least := some p } else l2
  let l4 :=
    if l3.len = l3.cap then
      match l3.least with
      | some t =>
          let leastPrev := (deref l3 t).prev
          let l3a := { l3 with values := mapDel l3.values (deref l3 t).key }
          let l3b := { l3a with least := leastPrev }
          match l3b.least with
          | some t2 => setNextPtr l3b t2 none
          | none => l3b
      | none => l3
    else { l3 with len := (l3.len + 1) % wordSize }
  { l4 with values := mapPut l4.values key p }

/-- `Put` (cache.go lines 46-79).  The `select` on `ctx.Done()` happens before
the mutex is taken, so it reads `ctx.done1`.  `now` is the value of
`time.Now()` during the call. -/
def Put [Inhabited Val] (l : LRUCache Val) (ctx : Ctx) (key : String) (value : Val)
    (ttl : Int) (now : Int) : LRUCache Val × Except Err Unit :=
  if ctx.done1 then (l, .error .contextDone)
  else
    let ttl1 := if ttl = 0 then l.defaultTTL else ttl
    let expiration := now + ttl1
    match mapGet l.values key with
    | none =>
        let p := l.nextAlloc
        let nd : Node Val :=
          { ttl := expiration, value := value, next := l.most, key := key, prev := none }
        let la := { l with heap := mapPut l.heap p nd, nextAlloc := l.nextAlloc + 1 }
        (createNode la key p, .ok ())
    | some p =>
        let lb := updNode l p (fun n => { n with value := value, ttl := expiration })
        (updateNode lb p, .ok ())

/-- `Get` (cache.go lines 81-106).  The `select` happens after the mutex is
acquired, so it reads `ctx.done2`.  `time.Now().After(node.ttl)` is the strict
comparison `now > ttl`.  The named return `expiresAt` is never assigned in the
source, so a successful `Get` returns the zero `time.Time`, i.e. `0`. -/
def Get [Inhabited Val] (l : LRUCache Val) (ctx : Ctx) (key : String) (now : Int) :
    LRUCache Val × Except Err (Val × Int) :=
  if ctx.done2 then (l, .error .contextDone)
  else
    match mapGet l.values key with
    | none => (l, .error .keyDoesNotExist)
    | some p =>
        if now > (deref l p).ttl then
          (evictNode l p, .error .keyDoesNotExist)
        else
          let l1 := updateNode l p
          (l1, .ok ((deref l1 p).value, 0))

/-- The `for key, node := range l.values` loop of `GetAll` (cache.go lines
120-127), iterating over a snapshot of the map's bindings.  Go's map iteration
order is unspecified; the embedding iterates in the association order of the
index.  Deleting the binding of the current key during the range is permitted
in Go and does not affect the remaining snapshot (keys are distinct). -/
def getAllLoop [Inhabited Val] (now : Int) :
    LRUCache Val → List (String × Nat) → List String → List Val →
    LRUCache Val × List String × List Val
  | l, [], ks, vs => (l, ks, vs)
  | l, (k, p) :: rest, ks, vs =>
      if now > (deref l p).ttl then
        getAllLoop now (evictNode l p) rest ks vs
      else
        getAllLoop now l rest (ks ++ [k]) (vs ++ [(deref l p).value])

/-- `GetAll` (cache.go lines 108-130). -/
def GetAll [Inhabited Val] (l : LRUCache Val) (ctx : Ctx) (now : Int) :
    LRUCache Val × Except Err (List String × List Val) :=
  if ctx.done2 then (l, .error .contextDone)
  else
    let r := getAllLoop now l l.values [] []
    (r.1, .ok (r.2.1, r.2.2))

/-- `Evict` (cache.go lines 131-151). -/
def Evict [Inhabited Val] (l : LRUCache Val) (ctx : Ctx) (key : String) :
    LRUCache Val × Except Err Val :=
  if ctx.done2 then (l, .error .contextDone)
  else
    match mapGet l.values key with
    | none => (l, .error .keyDoesNotExist)
    | some p => (evictNode l p, .ok (deref l p).value)

/-- `EvictAll` (cache.go lines 153-172): delete every key, reset `len`,
`most`, `least`. -/
def EvictAll (l : LRUCache Val) (ctx : Ctx) : LRUCache Val × Except Err Unit :=
  if ctx.done2 then (l, .error .contextDone)
  else ({ l with values := [], len := 0, most := none, least := none }, .ok ())

/-- `Service.EvictAll` (internal/service/service.go lines 57-59): its body is
`return s.EvictAll(ctx)` — a call to *itself*, not to `s.cache.EvictAll`.
The embedding unfolds the recursion with explicit fuel: one unit per nested
call.  The cache state `c` is threaded to witness that no engine operation is
ever invoked; `none` means the computation has not produced a result. -/
def serviceEvictAll (c : LRUCache Val) (ctx : Ctx) : Nat → Option (Except Err Unit)
  | 0 => none
  | fuel + 1 => serviceEvictAll c ctx fuel

/-- The entries reachable by walking the recency list from `mostRecent`
following `next`, cut off by fuel so the walk is total on arbitrary states. -/
def walkFrom [Inhabited Val] (h : List (Nat × Node Val)) :
    Nat → Option Nat → List Nat
  | 0, _ => []
  | _ + 1, none => []
  | fuel + 1, some p => p :: walkFrom h fuel (derefH h p).next

/-- The recency list of a cache state, head (`most`) first. -/
def walkList [Inhabited Val] (l : LRUCache Val) : List Nat :=
  walkFrom l.heap (l.heap.length + 1) l.most

/-! ### The doubly-linked-list representation predicate

`segB h pr cur ps pr2 cur2` checks that starting a walk with back-pointer
`pr` and position `cur`, the pointers `ps` form a well-linked segment (each
node allocated, `next` threading forward, `prev` threading backward) and the
walk hands off at `(pr2, cur2)`.  The full recency list of a state is a
segment from `(none, most)` to `(least, none)`. -/

def segB [Inhabited Val] (h : List (Nat × Node Val)) :
    Option Nat → Option Nat → List Nat → Option Nat → Option Nat → Bool
  | pr, cur, [], pr2, cur2 => pr == pr2 && cur == cur2
  | pr, cur, p :: rest, pr2, cur2 =>
      cur == some p && (mapGet h p).isSome &&
        ((derefH h p).prev == pr && segB h (some p) (derefH h p).next rest pr2 cur2)

/-- The whole recency list: from the head `most` back-pointer `none` to the
tail `least` with terminal `next = none`. -/
def listOk [Inhabited Val] (l : LRUCache Val) (ps : List Nat) : Bool :=
  segB l.heap none l.most ps l.least none

theorem segB_nil_iff [Inhabited Val] {h : List (Nat × Node Val)}
    {pr cur pr2 cur2 : Option Nat} :
    segB h pr cur [] pr2 cur2 = true ↔ pr = pr2 ∧ cur = cur2 := by
  simp [segB]

theorem segB_cons_iff [Inhabited Val] {h : List (Nat × Node Val)}
    {pr cur pr2 cur2 : Option Nat} {p : Nat} {rest : List Nat} :
    segB h pr cur (p :: rest) pr2 cur2 = true ↔
      cur = some p ∧ (mapGet h p).isSome = true ∧ (derefH h p).prev = pr ∧
        segB h (some p) (derefH h p).next rest pr2 cur2 = true := by
  simp [segB, and_assoc]

theorem segB_append_iff [Inhabited Val] {h : List (Nat × Node Val)}
    {xs ys : List Nat} {pr cur pr2 cur2 : Option Nat} :
    segB h pr cur (xs ++ ys) pr2 cur2 = true ↔
      ∃ pr1 cur1, segB h pr cur xs pr1 cur1 = true ∧
        segB h pr1 cur1 ys pr2 cur2 = true := by
  induction xs generalizing pr cur with
  | nil =>
    simp only [List.nil_append]
    constructor
    · intro hseg
      exact ⟨pr, cur, segB_nil_iff.mpr ⟨rfl, rfl⟩, hseg⟩
    · rintro ⟨pr1, cur1, hnil, hseg⟩
      rcases segB_nil_iff.mp hnil with ⟨hp, hc⟩
      rw [hp, hc]; exact hseg
  | cons x xs ih =>
    constructor
    · intro hseg
      rcases segB_cons_iff.mp hseg with ⟨hcur, halive, hprev, hseg'⟩
      rcases ih.mp hseg' with ⟨pr1, cur1, h1, h2⟩
      exact ⟨pr1, cur1, segB_cons_iff.mpr ⟨hcur, halive, hprev, h1⟩, h2⟩
    · rintro ⟨pr1, cur1, h1, h2⟩
      rcases segB_cons_iff.mp h1 with ⟨hcur, halive, hprev, hseg'⟩
      exact segB_cons_iff.mpr ⟨hcur, halive, hprev, ih.mpr ⟨pr1, cur1, hseg', h2⟩⟩

/-- Heap updates at a pointer outside a segment do not affect the segment. -/
theorem segB_frame [Inhabited Val] {h : List (Nat × Node Val)} {q : Nat}
    {nd : Node Val} {ps : List Nat} (hq : q ∉ ps) (pr cur pr2 cur2 : Option Nat) :
    segB (mapPut h q nd) pr cur ps pr2 cur2 = segB h pr cur ps pr2 cur2 := by
  induction ps generalizing pr cur with
  | nil => rfl
  | cons p rest ih =>
    have hqp : q ≠ p := fun hc => hq (hc ▸ List.mem_cons_self _ _)
    have hget : mapGet (mapPut h q nd) p = mapGet h p := by
      rw [mapGet_mapPut, if_neg hqp]
    have hderef : derefH (mapPut h q nd) p = derefH h p := by
      unfold derefH; rw [hget]
    have hqrest : q ∉ rest := fun hc => hq (List.mem_cons_of_mem _ hc)
    simp only [segB, hget, hderef, ih hqrest]

theorem segB_handoff [Inhabited Val] {h : List (Nat × Node Val)} {ps : List Nat}
    {pr cur pr2 cur2 : Option Nat} (hseg : segB h pr cur ps pr2 cur2 = true) :
    (ps = [] ∧ pr2 = pr ∧ cur2 = cur) ∨
      (∃ z, ps.getLast? = some z ∧ pr2 = some z ∧ cur2 = (derefH h z).next ∧
        (mapGet h z).isSome = true) := by
  induction ps generalizing pr cur with
  | nil =>
    rcases segB_nil_iff.mp hseg with ⟨hp, hc⟩
    exact Or.inl ⟨rfl, hp.symm, hc.symm⟩
  | cons p rest ih =>
    rcases segB_cons_iff.mp hseg with ⟨hcur, halive, hprev, hseg'⟩
    rcases ih hseg' with ⟨hnil, hp, hc⟩ | ⟨z, hlast, hp, hc, hz⟩
    · subst hnil
      exact Or.inr ⟨p, by simp, hp, hc, halive⟩
    · refine Or.inr ⟨z, ?_, hp, hc, hz⟩
      cases rest with
      | nil => simp at hlast
      | cons b bl => rw [List.getLast?_cons_cons]; exact hlast

theorem derefH_mapPut [Inhabited Val] (h : List (Nat × Node Val)) (q : Nat)
    (nd : Node Val) (r : Nat) :
    derefH (mapPut h q nd) r = if q = r then nd else derefH h r := by
  by_cases hqr : q = r
  · subst hqr
    show (mapGet (mapPut h q nd) q).getD default = _
    rw [mapGet_mapPut, if_pos rfl, if_pos rfl]
    rfl
  · show (mapGet (mapPut h q nd) r).getD default = _
    rw [mapGet_mapPut, if_neg hqr, if_neg hqr]
    rfl

/-- Updating the `prev` pointer of the head of a segment. -/
theorem segB_update_head_prev [Inhabited Val] {h : List (Nat × Node Val)}
    {u : Nat} {rest : List Nat} {pr pr2 cur2 npr : Option Nat}
    (hseg : segB h pr (some u) (u :: rest) pr2 cur2 = true) (hu : u ∉ rest) :
    segB (mapPut h u { derefH h u with prev := npr }) npr (some u) (u :: rest) pr2
      cur2 = true := by
  rcases segB_cons_iff.mp hseg with ⟨_, halive, _, hseg'⟩
  have hd : derefH (mapPut h u { derefH h u with prev := npr }) u
      = { derefH h u with prev := npr } := by
    rw [derefH_mapPut]; simp
  have hs : (mapGet (mapPut h u { derefH h u with prev := npr }) u).isSome = true := by
    rw [mapGet_mapPut]; simp
  refine segB_cons_iff.mpr ⟨rfl, hs, ?_, ?_⟩
  · rw [hd]
  · rw [hd]
    show segB _ (some u) (derefH h u).next rest pr2 cur2 = true
    rw [segB_frame hu]
    exact hseg'


/-- `segB_update_head_prev` with the new back-pointer explicit (for use when
the expected type is not known in advance). -/
theorem segB_update_head_prev_at [Inhabited Val] (npr pr : Option Nat)
    {h : List (Nat × Node Val)} {u : Nat} {rest : List Nat}
    {pr2 cur2 : Option Nat}
    (hseg : segB h pr (some u) (u :: rest) pr2 cur2 = true) (hu : u ∉ rest) :
    segB (mapPut h u { derefH h u with prev := npr }) npr (some u) (u :: rest) pr2
      cur2 = true :=
  segB_update_head_prev hseg hu

/-- Updating the `next` pointer of the last node of a segment redirects the
handoff position. -/
theorem segB_update_last_next [Inhabited Val] {h : List (Nat × Node Val)}
    {z : Nat} {qs : List Nat} {pr cur cur2 ncur : Option Nat}
    (hseg : segB h pr cur (qs ++ [z]) (some z) cur2 = true) (hz : z ∉ qs) :
    segB (mapPut h z { derefH h z with next := ncur }) pr cur (qs ++ [z]) (some z)
      ncur = true := by
  rcases segB_append_iff.mp hseg with ⟨pr1, cur1, h1, h2⟩
  rcases segB_cons_iff.mp h2 with ⟨hcur1, halive, hprev, hend⟩
  have hd : derefH (mapPut h z { derefH h z with next := ncur }) z
      = { derefH h z with next := ncur } := by
    rw [derefH_mapPut]; simp
  have hs : (mapGet (mapPut h z { derefH h z with next := ncur }) z).isSome = true := by
    rw [mapGet_mapPut]; simp
  refine segB_append_iff.mpr ⟨pr1, cur1, ?_, ?_⟩
  · rw [segB_frame hz]; exact h1
  · refine segB_cons_iff.mpr ⟨hcur1, hs, ?_, ?_⟩
    · rw [hd]; exact hprev
    · rw [hd]
      exact segB_nil_iff.mpr ⟨rfl, rfl⟩

theorem listOk_def [Inhabited Val] (l : LRUCache Val) (ps : List Nat) :
    listOk l ps = segB l.heap none l.most ps l.least none := rfl

/-! ### The state invariant

`Inv l ps` says that `ps` (pointers, most- to least-recently used) is the
recency list of `l` and that the index `values` and the list are in lock-step:
the data-model invariants of the spec, plus the bookkeeping (allocator
freshness, key distinctness) needed to maintain them. -/

structure Inv [Inhabited Val] (l : LRUCache Val) (ps : List Nat) : Prop where
  chain : listOk l ps = true
  nodup : ps.Nodup
  len_eq : l.len = ps.length
  len_le : l.len ≤ l.cap
  cap_pos : 0 < l.cap
  cap_lt : l.cap < wordSize
  vals_distinct : keysDistinct l.values
  vals_sound : ∀ kp ∈ l.values, kp.2 ∈ ps ∧ (deref l kp.2).key = kp.1
  vals_complete : ∀ p ∈ ps, mapGet l.values (deref l p).key = some p
  vals_len : l.values.length = ps.length
  heap_lt : ∀ pn ∈ l.heap, pn.1 < l.nextAlloc

theorem Inv.mem_of_lookup [Inhabited Val] {l : LRUCache Val} {ps : List Nat}
    (hInv : Inv l ps) {k : String} {p : Nat} (hg : mapGet l.values k = some p) :
    p ∈ ps :=
  (hInv.vals_sound (k, p) (mapGet_eq_some_mem hg)).1

theorem Inv.key_of_lookup [Inhabited Val] {l : LRUCache Val} {ps : List Nat}
    (hInv : Inv l ps) {k : String} {p : Nat} (hg : mapGet l.values k = some p) :
    (deref l p).key = k :=
  (hInv.vals_sound (k, p) (mapGet_eq_some_mem hg)).2

theorem Inv.ps_alive [Inhabited Val] {l : LRUCache Val} {ps : List Nat}
    (hInv : Inv l ps) {p : Nat} (hp : p ∈ ps) :
    (mapGet l.heap p).isSome = true := by
  rcases List.append_of_mem hp with ⟨xs, ys, hps⟩
  have hchain := hInv.chain
  rw [listOk_def, hps] at hchain
  rcases segB_append_iff.mp hchain with ⟨pr0, cur0, _, hpys⟩
  exact (segB_cons_iff.mp hpys).2.1

theorem Inv.ps_lt_nextAlloc [Inhabited Val] {l : LRUCache Val} {ps : List Nat}
    (hInv : Inv l ps) {p : Nat} (hp : p ∈ ps) : p < l.nextAlloc := by
  have halive := hInv.ps_alive hp
  rcases Option.isSome_iff_exists.mp halive with ⟨nd, hnd⟩
  exact hInv.heap_lt (p, nd) (mapGet_eq_some_mem hnd)

theorem Inv.fresh_not_mem [Inhabited Val] {l : LRUCache Val} {ps : List Nat}
    (hInv : Inv l ps) : l.nextAlloc ∉ ps := by
  intro hc
  exact absurd (hInv.ps_lt_nextAlloc hc) (lt_irrefl _)

theorem Inv.most_eq [Inhabited Val] {l : LRUCache Val} {ps : List Nat}
    (hInv : Inv l ps) : l.most = ps.head? := by
  have hchain := hInv.chain
  rw [listOk_def] at hchain
  cases ps with
  | nil => exact (segB_nil_iff.mp hchain).2
  | cons p rest => rw [(segB_cons_iff.mp hchain).1]; rfl

theorem Inv.least_eq [Inhabited Val] {l : LRUCache Val} {ps : List Nat}
    (hInv : Inv l ps) : l.least = ps.getLast? := by
  have hchain := hInv.chain
  rw [listOk_def] at hchain
  rcases segB_handoff hchain with ⟨hnil, hp, _⟩ | ⟨z, hlast, hp, _, _⟩
  · subst hnil; rw [hp]; rfl
  · rw [hp, hlast]

theorem Inv.len_pos_of_mem [Inhabited Val] {l : LRUCache Val} {ps : List Nat}
    (hInv : Inv l ps) {p : Nat} (hp : p ∈ ps) : 1 ≤ l.len := by
  rw [hInv.len_eq]
  exact Nat.succ_le_of_lt (List.length_pos.mpr (List.ne_nil_of_mem hp))

/-! Record-level facts about the pointer-field setters. -/

theorem setNextPtr_fields [Inhabited Val] (l : LRUCache Val) (p : Nat)
    (x : Option Nat) :
    (setNextPtr l p x).defaultTTL = l.defaultTTL ∧
    (setNextPtr l p x).len = l.len ∧ (setNextPtr l p x).cap = l.cap ∧
    (setNextPtr l p x).values = l.values ∧
    (setNextPtr l p x).nextAlloc = l.nextAlloc ∧
    (setNextPtr l p x).most = l.most ∧ (setNextPtr l p x).least = l.least ∧
    (setNextPtr l p x).heap = mapPut l.heap p { deref l p with next := x } :=
  ⟨rfl, rfl, rfl, rfl, rfl, rfl, rfl, rfl⟩

theorem setPrevPtr_fields [Inhabited Val] (l : LRUCache Val) (p : Nat)
    (x : Option Nat) :
    (setPrevPtr l p x).defaultTTL = l.defaultTTL ∧
    (setPrevPtr l p x).len = l.len ∧ (setPrevPtr l p x).cap = l.cap ∧
    (setPrevPtr l p x).values = l.values ∧
    (setPrevPtr l p x).nextAlloc = l.nextAlloc ∧
    (setPrevPtr l p x).most = l.most ∧ (setPrevPtr l p x).least = l.least ∧
    (setPrevPtr l p x).heap = mapPut l.heap p { deref l p with prev := x } :=
  ⟨rfl, rfl, rfl, rfl, rfl, rfl, rfl, rfl⟩

theorem deref_setNextPtr [Inhabited Val] (l : LRUCache Val) (p : Nat)
    (x : Option Nat) (r : Nat) :
    deref (setNextPtr l p x) r =
      if p = r then { deref l p with next := x } else deref l r := by
  show derefH (mapPut l.heap p _) r = _
  rw [derefH_mapPut]
  rfl

theorem deref_setPrevPtr [Inhabited Val] (l : LRUCache Val) (p : Nat)
    (x : Option Nat) (r : Nat) :
    deref (setPrevPtr l p x) r =
      if p = r then { deref l p with prev := x } else deref l r := by
  show derefH (mapPut l.heap p _) r = _
  rw [derefH_mapPut]
  rfl

@[simp] theorem setNextPtr_most [Inhabited Val] (l : LRUCache Val) (p : Nat)
    (x : Option Nat) : (setNextPtr l p x).most = l.most := rfl

@[simp] theorem setNextPtr_least [Inhabited Val] (l : LRUCache Val) (p : Nat)
    (x : Option Nat) : (setNextPtr l p x).least = l.least := rfl

@[simp] theorem setNextPtr_values [Inhabited Val] (l : LRUCache Val) (p : Nat)
    (x : Option Nat) : (setNextPtr l p x).values = l.values := rfl

@[simp] theorem setNextPtr_len [Inhabited Val] (l : LRUCache Val) (p : Nat)
    (x : Option Nat) : (setNextPtr l p x).len = l.len := rfl

@[simp] theorem setNextPtr_cap [Inhabited Val] (l : LRUCache Val) (p : Nat)
    (x : Option Nat) : (setNextPtr l p x).cap = l.cap := rfl

@[simp] theorem setNextPtr_defaultTTL [Inhabited Val] (l : LRUCache Val) (p : Nat)
    (x : Option Nat) : (setNextPtr l p x).defaultTTL = l.defaultTTL := rfl

@[simp] theorem setNextPtr_nextAlloc [Inhabited Val] (l : LRUCache Val) (p : Nat)
    (x : Option Nat) : (setNextPtr l p x).nextAlloc = l.nextAlloc := rfl

@[simp] theorem setPrevPtr_most [Inhabited Val] (l : LRUCache Val) (p : Nat)
    (x : Option Nat) : (setPrevPtr l p x).most = l.most := rfl

@[simp] theorem setPrevPtr_least [Inhabited Val] (l : LRUCache Val) (p : Nat)
    (x : Option Nat) : (setPrevPtr l p x).least = l.least := rfl

@[simp] theorem setPrevPtr_values [Inhabited Val] (l : LRUCache Val) (p : Nat)
    (x : Option Nat) : (setPrevPtr l p x).values = l.values := rfl

@[simp] theorem setPrevPtr_len [Inhabited Val] (l : LRUCache Val) (p : Nat)
    (x : Option Nat) : (setPrevPtr l p x).len = l.len := rfl

@[simp] theorem setPrevPtr_cap [Inhabited Val] (l : LRUCache Val) (p : Nat)
    (x : Option Nat) : (setPrevPtr l p x).cap = l.cap := rfl

@[simp] theorem setPrevPtr_defaultTTL [Inhabited Val] (l : LRUCache Val) (p : Nat)
    (x : Option Nat) : (setPrevPtr l p x).defaultTTL = l.defaultTTL := rfl

@[simp] theorem setPrevPtr_nextAlloc [Inhabited Val] (l : LRUCache Val) (p : Nat)
    (x : Option Nat) : (setPrevPtr l p x).nextAlloc = l.nextAlloc := rfl

/-- A pointer-field write never changes `key`, `value` or `ttl` of any node,
nor the allocatedness of any pointer. -/
theorem derefH_mapPut_pointer_fields [Inhabited Val] {h : List (Nat × Node Val)}
    {x : Nat} {nd : Node Val} (hk : nd.key = (derefH h x).key)
    (hv : nd.value = (derefH h x).value) (ht : nd.ttl = (derefH h x).ttl) (q : Nat) :
    (derefH (mapPut h x nd) q).key = (derefH h q).key ∧
    (derefH (mapPut h x nd) q).value = (derefH h q).value ∧
    (derefH (mapPut h x nd) q).ttl = (derefH h q).ttl := by
  rw [derefH_mapPut]
  by_cases hxq : x = q
  · subst hxq
    simp [hk, hv, ht]
  · simp [hxq]

theorem isSome_mapPut [Inhabited Val] {h : List (Nat × Node Val)} (x : Nat)
    (nd : Node Val) (q : Nat) (hq : (mapGet h q).isSome = true) :
    (mapGet (mapPut h x nd) q).isSome = true := by
  rw [mapGet_mapPut]
  by_cases hxq : x = q
  · simp [hxq]
  · simp [hxq, hq]

theorem heap_lt_mapPut [Inhabited Val] {h : List (Nat × Node Val)} {N : Nat}
    {x : Nat} (hlt : ∀ pn ∈ h, pn.1 < N) (hx : x < N) (nd : Node Val) :
    ∀ pn ∈ mapPut h x nd, pn.1 < N := by
  intro pn hm
  rcases mem_mapPut hm with hin | hnd
  · exact hlt pn hin
  · rw [hnd]; exact hx

/-- `uint` decrement: for `1 ≤ n < 2^64`, `(n + (2^64 - 1)) % 2^64 = n - 1`. -/
theorem uint_dec_eq {n : Nat} (h1 : 1 ≤ n) (h2 : n < wordSize) :
    (n + (wordSize - 1)) % wordSize = n - 1 := by
  have hw : 0 < wordSize := by decide
  have heq : n + (wordSize - 1) = wordSize + (n - 1) := by omega
  rw [heq, Nat.add_mod_left, Nat.mod_eq_of_lt (by omega)]

@[simp] theorem deref_eq [Inhabited Val] (l : LRUCache Val) (p : Nat) :
    deref l p = derefH l.heap p := rfl

theorem mem_of_getLastQ {α : Type} {l : List α} {a : α} (h : l.getLast? = some a) :
    a ∈ l := by
  rcases List.mem_getLast?_eq_getLast (Option.mem_def.mpr h) with ⟨hne, heq⟩
  rw [heq]
  exact List.getLast_mem hne

/-- Rebuild the invariant after `evictNode` removed the middle element `p`
from the recency list, given the parts that differ between the four
linking cases. -/
theorem evict_inv_of_parts [Inhabited Val] {l l' : LRUCache Val} {xs ys : List Nat}
    {p : Nat} (hInv : Inv l (xs ++ p :: ys))
    (hvals : l'.values = mapDel l.values ((derefH l.heap p).key))
    (hlen : l'.len = (l.len + (wordSize - 1)) % wordSize)
    (hcap : l'.cap = l.cap)
    (hfields : ∀ q, (derefH l'.heap q).key = (derefH l.heap q).key ∧
        (derefH l'.heap q).value = (derefH l.heap q).value ∧
        (derefH l'.heap q).ttl = (derefH l.heap q).ttl)
    (hchain : listOk l' (xs ++ ys) = true)
    (hheaplt : ∀ pn ∈ l'.heap, pn.1 < l'.nextAlloc) :
    Inv l' (xs ++ ys) := by
  have hpmem : p ∈ xs ++ p :: ys := List.mem_append.mpr (Or.inr (List.mem_cons_self _ _))
  have hkeyp : mapGet l.values ((derefH l.heap p).key) = some p := by
    have := hInv.vals_complete p hpmem
    simpa [deref_eq] using this
  have hlenlow : 1 ≤ l.len := hInv.len_pos_of_mem hpmem
  have hlenhigh : l.len < wordSize := lt_of_le_of_lt hInv.len_le hInv.cap_lt
  have hdec : l'.len = l.len - 1 := by rw [hlen, uint_dec_eq hlenlow hlenhigh]
  have hndps := hInv.nodup
  rcases List.nodup_append.mp hndps with ⟨hndxs, hndpys, hdisj⟩
  rcases List.nodup_cons.mp hndpys with ⟨hpnys, hndys⟩
  have hpnxs : p ∉ xs := fun hc => hdisj hc (List.mem_cons_self _ _)
  have hqnep : ∀ q ∈ xs ++ ys, q ≠ p := by
    intro q hq hqp
    subst hqp
    rcases List.mem_append.mp hq with hx | hy
    · exact hpnxs hx
    · exact hpnys hy
  have hmem' : ∀ q ∈ xs ++ ys, q ∈ xs ++ p :: ys := by
    intro q hq
    rcases List.mem_append.mp hq with hx | hy
    · exact List.mem_append.mpr (Or.inl hx)
    · exact List.mem_append.mpr (Or.inr (List.mem_cons_of_mem _ hy))
  have hkeys_ne : ∀ q ∈ xs ++ ys, (derefH l.heap q).key ≠ (derefH l.heap p).key := by
    intro q hq hc
    have h1 : mapGet l.values ((derefH l.heap q).key) = some q := by
      have := hInv.vals_complete q (hmem' q hq)
      simpa [deref_eq] using this
    rw [hc, hkeyp] at h1
    exact hqnep q hq (Option.some.inj h1).symm
  refine ⟨hchain, ?_, ?_, ?_, ?_, ?_, ?_, ?_, ?_, ?_, hheaplt⟩
  · exact List.Nodup.append hndxs hndys
      (fun a ha hay => hdisj ha (List.mem_cons_of_mem _ hay))
  · have h3 := hInv.len_eq
    rw [hdec, h3]
    simp [List.length_append]
  · have h4 := hInv.len_le
    rw [hdec, hcap]
    omega
  · rw [hcap]; exact hInv.cap_pos
  · rw [hcap]; exact hInv.cap_lt
  · rw [hvals]; exact keysDistinct_mapDel _ hInv.vals_distinct
  · intro kp hm
    rw [hvals] at hm
    rcases mem_mapDel.mp hm with ⟨hmem, hne⟩
    obtain ⟨hin, hkey⟩ := hInv.vals_sound kp hmem
    simp only [deref_eq] at hkey
    have hkp2 : kp.2 ≠ p := by
      intro hc
      rw [hc] at hkey
      exact hne (by rw [← hkey])
    constructor
    · rcases List.mem_append.mp hin with hx | hpy
      · exact List.mem_append.mpr (Or.inl hx)
      · rcases List.mem_cons.mp hpy with hc | hy
        · exact absurd hc hkp2
        · exact List.mem_append.mpr (Or.inr hy)
    · simp only [deref_eq]
      rw [(hfields kp.2).1]
      exact hkey
  · intro q hq
    simp only [deref_eq]
    rw [hvals, (hfields q).1, mapGet_mapDel,
      if_neg (fun hc => hkeys_ne q hq hc.symm)]
    have := hInv.vals_complete q (hmem' q hq)
    simpa [deref_eq] using this
  · rw [hvals]
    have h2 := mapDel_length hInv.vals_distinct hkeyp
    have h3 := hInv.vals_len
    simp only [List.length_append, List.length_cons] at h3 ⊢
    omega

/-- Full effect of `evictNode` on a state satisfying the invariant, where `p`
sits between `xs` and `ys` in the recency list: the node is spliced out, its
key leaves the index, `len` drops by one, and no `key`/`value`/`ttl` field of
any node changes. -/
theorem evictNode_spec [Inhabited Val] {l : LRUCache Val} {ps xs ys : List Nat}
    {p : Nat} (hInv : Inv l ps) (hps : ps = xs ++ p :: ys) :
    Inv (evictNode l p) (xs ++ ys) ∧
    (evictNode l p).values = mapDel l.values ((derefH l.heap p).key) ∧
    (evictNode l p).len + 1 = l.len ∧
    (evictNode l p).cap = l.cap ∧
    (evictNode l p).defaultTTL = l.defaultTTL ∧
    (evictNode l p).nextAlloc = l.nextAlloc ∧
    (∀ q, (derefH (evictNode l p).heap q).key = (derefH l.heap q).key ∧
          (derefH (evictNode l p).heap q).value = (derefH l.heap q).value ∧
          (derefH (evictNode l p).heap q).ttl = (derefH l.heap q).ttl) ∧
    (∀ q, (mapGet l.heap q).isSome = true →
          (mapGet (evictNode l p).heap q).isSome = true) := by
  subst hps
  have hnd := hInv.nodup
  rcases List.nodup_append.mp hnd with ⟨hndxs, hndpys, hdisj⟩
  rcases List.nodup_cons.mp hndpys with ⟨hpnys, hndys⟩
  have hpnxs : p ∉ xs := fun hc => hdisj hc (List.mem_cons_self _ _)
  have hlenlow : 1 ≤ l.len :=
    hInv.len_pos_of_mem (List.mem_append.mpr (Or.inr (List.mem_cons_self _ _)))
  have hlenhigh : l.len < wordSize := lt_of_le_of_lt hInv.len_le hInv.cap_lt
  have hlen1 : ∀ l' : LRUCache Val,
      l'.len = (l.len + (wordSize - 1)) % wordSize → l'.len + 1 = l.len := by
    intro l' hh
    rw [hh, uint_dec_eq hlenlow hlenhigh]
    omega
  have hchain := hInv.chain
  rw [listOk_def] at hchain
  rcases segB_append_iff.mp hchain with ⟨pr0, cur0, hxs, hpys'⟩
  rcases segB_cons_iff.mp hpys' with ⟨hcur0, halivep, hprevp, hysseg⟩
  cases xs with
  | nil =>
    rcases segB_nil_iff.mp hxs with ⟨hpr0, hcur0'⟩
    have hprevp' : (derefH l.heap p).prev = none := by rw [hprevp, ← hpr0]
    have hmost : l.most = some p := by rw [hcur0', hcur0]
    cases ys with
    | nil =>
      rcases segB_nil_iff.mp hysseg with ⟨hleast', hnextp⟩
      have hleast : l.least = some p := hleast'.symm
      have hev : evictNode l p = { l with
          most := none, least := none,
          values := mapDel l.values ((derefH l.heap p).key),
          len := (l.len + (wordSize - 1)) % wordSize } := by
        simp [evictNode, hprevp', hnextp, hmost, hleast]
      refine ⟨evict_inv_of_parts hInv (by simp [hev]) (by simp [hev]) (by simp [hev])
          (fun q => by simp [hev]) ?_ ?_,
        by simp [hev], hlen1 _ (by simp [hev]), by simp [hev], by simp [hev],
        by simp [hev], fun q => by simp [hev], fun q hq => by simpa [hev] using hq⟩
      · simp only [hev, listOk_def]
        exact segB_nil_iff.mpr ⟨rfl, rfl⟩
      · intro pn hm
        simp only [hev] at hm ⊢
        exact hInv.heap_lt pn hm
    | cons r ys' =>
      rcases segB_cons_iff.mp hysseg with ⟨hnextp, haliver, hrprev, hys'⟩
      rw [hnextp] at hysseg
      have hrys : r ∈ r :: ys' := List.mem_cons_self _ _
      have hrp : r ≠ p := fun hc => hpnys (hc ▸ hrys)
      have hrnys' : r ∉ ys' := (List.nodup_cons.mp hndys).1
      have hleastne : l.least ≠ some p := by
        rcases segB_handoff hysseg with ⟨habs, _, _⟩ | ⟨zz, hlast, hp2, _, _⟩
        · exact absurd habs (by simp)
        · rw [hp2]
          intro hc
          have hzzp : zz = p := Option.some.inj hc
          exact hpnys (hzzp ▸ mem_of_getLastQ hlast)
      have hev : evictNode l p = { l with
          heap := mapPut l.heap r { derefH l.heap r with prev := none },
          most := some r,
          values := mapDel l.values ((derefH l.heap p).key),
          len := (l.len + (wordSize - 1)) % wordSize } := by
        simp [evictNode, hprevp', hnextp, hrp, hmost, hleastne, derefH_mapPut,
          setPrevPtr, updNode]
      have hchain2 : segB (mapPut l.heap r { derefH l.heap r with prev := none })
          none (some r) (r :: ys') l.least none = true := by
        exact segB_update_head_prev hysseg hrnys'
      refine ⟨evict_inv_of_parts hInv (by simp [hev]) (by simp [hev]) (by simp [hev])
          (fun q => by simp only [hev]; refine derefH_mapPut_pointer_fields ?_ ?_ ?_ q <;> rfl)
          ?_ ?_,
        by simp [hev], hlen1 _ (by simp [hev]), by simp [hev], by simp [hev],
        by simp [hev],
        (fun q => by simp only [hev]; refine derefH_mapPut_pointer_fields ?_ ?_ ?_ q <;> rfl),
        (fun q hq => by simp only [hev]; exact isSome_mapPut _ _ _ hq)⟩
      · simp only [hev, listOk_def]
        exact hchain2
      · intro pn hm
        simp only [hev] at hm
        simp only [hev]
        exact heap_lt_mapPut hInv.heap_lt
          (hInv.ps_lt_nextAlloc (List.mem_append.mpr
            (Or.inr (List.mem_cons_of_mem _ hrys)))) _ pn hm
  | cons u xs'' =>
    rcases List.eq_nil_or_concat (u :: xs'') with hcon | ⟨xs1, z, hcon⟩
    · exact absurd hcon (by simp)
    rw [List.concat_eq_append] at hcon
    have humem : u ∈ u :: xs'' := List.mem_cons_self _ _
    have hup : u ≠ p := fun hc => hpnxs (hc ▸ humem)
    have hmostu : l.most = some u := by
      rw [hInv.most_eq]; rfl
    have hmostne : l.most ≠ some p := by
      rw [hmostu]
      intro hc
      exact hup (Option.some.inj hc)
    rw [hcon] at hxs hndxs hpnxs hdisj hInv
    have hzxs : z ∈ xs1 ++ [z] := List.mem_append.mpr (Or.inr (List.mem_cons_self _ _))
    have hzp : z ≠ p := fun hc => hpnxs (hc ▸ hzxs)
    have hzxs1 : z ∉ xs1 := by
      rcases List.nodup_append.mp hndxs with ⟨_, _, hdj⟩
      exact fun hc => hdj hc (List.mem_cons_self _ _)
    rcases segB_handoff hxs with ⟨habs, _, _⟩ | ⟨z', hlast, hpr0, hcur0z, halivez⟩
    · exact absurd habs (by simp)
    have hzz' : z = z' := by
      rw [List.getLast?_concat] at hlast
      exact Option.some.inj hlast
    subst hzz'
    have hprevp' : (derefH l.heap p).prev = some z := by rw [hprevp, hpr0]
    have hznext : (derefH l.heap z).next = some p := by rw [← hcur0z, hcur0]
    rw [hcon]
    cases ys with
    | nil =>
      rcases segB_nil_iff.mp hysseg with ⟨hleast', hnextp⟩
      have hleast : l.least = some p := hleast'.symm
      have hev : evictNode l p = { l with
          heap := mapPut l.heap z { derefH l.heap z with next := none },
          least := some z,
          values := mapDel l.values ((derefH l.heap p).key),
          len := (l.len + (wordSize - 1)) % wordSize } := by
        simp [evictNode, hprevp', hnextp, hzp, hmostne, hleast, derefH_mapPut,
          setNextPtr, updNode]
      have hxs2 : segB l.heap none l.most (xs1 ++ [z]) (some z) (some p) = true := by
        rw [← hpr0, ← hcur0]
        exact hxs
      have hchain2 : segB (mapPut l.heap z { derefH l.heap z with next := none })
          none l.most (xs1 ++ [z]) (some z) none = true :=
        segB_update_last_next hxs2 hzxs1
      refine ⟨evict_inv_of_parts hInv (by simp [hev]) (by simp [hev]) (by simp [hev])
          (fun q => by simp only [hev]; refine derefH_mapPut_pointer_fields ?_ ?_ ?_ q <;> rfl)
          ?_ ?_,
        by simp [hev], hlen1 _ (by simp [hev]), by simp [hev], by simp [hev],
        by simp [hev],
        (fun q => by simp only [hev]; refine derefH_mapPut_pointer_fields ?_ ?_ ?_ q <;> rfl),
        (fun q hq => by simp only [hev]; exact isSome_mapPut _ _ _ hq)⟩
      · simp only [hev, listOk_def]
        show segB _ none l.most ((xs1 ++ [z]) ++ []) (some z) none = true
        rw [List.append_nil]
        exact hchain2
      · intro pn hm
        simp only [hev] at hm
        simp only [hev]
        exact heap_lt_mapPut hInv.heap_lt
          (hInv.ps_lt_nextAlloc (List.mem_append.mpr (Or.inl hzxs))) _ pn hm
    | cons r ys' =>
      rcases segB_cons_iff.mp hysseg with ⟨hnextp, haliver, hrprev, hys'⟩
      rw [hnextp] at hysseg
      have hrys : r ∈ r :: ys' := List.mem_cons_self _ _
      have hrp : r ≠ p := fun hc => hpnys (hc ▸ hrys)
      have hrnys' : r ∉ ys' := (List.nodup_cons.mp hndys).1
      have hznys : z ∉ r :: ys' := fun hc => hdisj hzxs (List.mem_cons_of_mem _ hc)
      have hrnxs : r ∉ xs1 ++ [z] := fun hc => hdisj hc (List.mem_cons_of_mem _ hrys)
      have hzr : z ≠ r := fun hc => hznys (hc ▸ hrys)
      have hleastne : l.least ≠ some p := by
        rcases segB_handoff hysseg with ⟨habs, _, _⟩ | ⟨zz, hlast2, hp2, _, _⟩
        · exact absurd habs (by simp)
        · rw [hp2]
          intro hc
          have hzzp : zz = p := Option.some.inj hc
          exact hpnys (hzzp ▸ mem_of_getLastQ hlast2)
      have hev : evictNode l p = { l with
          heap := mapPut (mapPut l.heap z { derefH l.heap z with next := some r }) r
            { derefH (mapPut l.heap z { derefH l.heap z with next := some r }) r with
                prev := some z },
          values := mapDel l.values ((derefH l.heap p).key),
          len := (l.len + (wordSize - 1)) % wordSize } := by
        simp [evictNode, hprevp', hnextp, hzp, hrp, hzr, hmostne, hleastne,
          derefH_mapPut, setNextPtr, setPrevPtr, updNode]
      have hxs2 : segB l.heap none l.most (xs1 ++ [z]) (some z) (some p) = true := by
        rw [← hpr0, ← hcur0]
        exact hxs
      have hpart1 : segB (mapPut l.heap z { derefH l.heap z with next := some r })
          none l.most (xs1 ++ [z]) (some z) (some r) = true :=
        segB_update_last_next hxs2 hzxs1
      have hpart1' : segB (mapPut (mapPut l.heap z
            { derefH l.heap z with next := some r }) r
            { derefH (mapPut l.heap z { derefH l.heap z with next := some r }) r with
                prev := some z })
          none l.most (xs1 ++ [z]) (some z) (some r) = true := by
        rw [segB_frame hrnxs]
        exact hpart1
      have hys_h1 : segB (mapPut l.heap z { derefH l.heap z with next := some r })
          (some p) (some r) (r :: ys') l.least none = true := by
        rw [segB_frame hznys]
        exact hysseg
      have hpart2 : segB (mapPut (mapPut l.heap z
            { derefH l.heap z with next := some r }) r
            { derefH (mapPut l.heap z { derefH l.heap z with next := some r }) r with
                prev := some z })
          (some z) (some r) (r :: ys') l.least none = true := by
        exact segB_update_head_prev hys_h1 hrnys'
      have hchain2 := segB_append_iff.mpr ⟨some z, some r, hpart1', hpart2⟩
      refine ⟨evict_inv_of_parts hInv (by simp [hev]) (by simp [hev]) (by simp [hev])
          ?_ ?_ ?_,
        by simp [hev], hlen1 _ (by simp [hev]), by simp [hev], by simp [hev],
        by simp [hev], ?_, ?_⟩
      · intro q
        simp only [hev]
        have f2 : (derefH (mapPut (mapPut l.heap z
              { derefH l.heap z with next := some r }) r
              { derefH (mapPut l.heap z { derefH l.heap z with next := some r }) r with
                  prev := some z }) q).key =
              (derefH (mapPut l.heap z { derefH l.heap z with next := some r }) q).key ∧
            (derefH (mapPut (mapPut l.heap z
              { derefH l.heap z with next := some r }) r
              { derefH (mapPut l.heap z { derefH l.heap z with next := some r }) r with
                  prev := some z }) q).value =
              (derefH (mapPut l.heap z { derefH l.heap z with next := some r }) q).value ∧
            (derefH (mapPut (mapPut l.heap z
              { derefH l.heap z with next := some r }) r
              { derefH (mapPut l.heap z { derefH l.heap z with next := some r }) r with
                  prev := some z }) q).ttl =
              (derefH (mapPut l.heap z { derefH l.heap z with next := some r }) q).ttl := by
          refine derefH_mapPut_pointer_fields ?_ ?_ ?_ q <;> rfl
        have f1 : (derefH (mapPut l.heap z { derefH l.heap z with next := some r }) q).key =
              (derefH l.heap q).key ∧
            (derefH (mapPut l.heap z { derefH l.heap z with next := some r }) q).value =
              (derefH l.heap q).value ∧
            (derefH (mapPut l.heap z { derefH l.heap z with next := some r }) q).ttl =
              (derefH l.heap q).ttl := by
          refine derefH_mapPut_pointer_fields ?_ ?_ ?_ q <;> rfl
        exact ⟨f2.1.trans f1.1, f2.2.1.trans f1.2.1, f2.2.2.trans f1.2.2⟩
      · simp only [hev, listOk_def]
        exact hchain2
      · intro pn hm
        simp only [hev] at hm
        simp only [hev]
        have hz_lt := hInv.ps_lt_nextAlloc (List.mem_append.mpr (Or.inl hzxs))
        have hr_lt := hInv.ps_lt_nextAlloc
          (List.mem_append.mpr (Or.inr (List.mem_cons_of_mem _ hrys)))
        exact heap_lt_mapPut (heap_lt_mapPut hInv.heap_lt hz_lt _) hr_lt _ pn hm
      · intro q
        simp only [hev]
        have f2 : (derefH (mapPut (mapPut l.heap z
              { derefH l.heap z with next := some r }) r
              { derefH (mapPut l.heap z { derefH l.heap z with next := some r }) r with
                  prev := some z }) q).key =
              (derefH (mapPut l.heap z { derefH l.heap z with next := some r }) q).key ∧
            (derefH (mapPut (mapPut l.heap z
              { derefH l.heap z with next := some r }) r
              { derefH (mapPut l.heap z { derefH l.heap z with next := some r }) r with
                  prev := some z }) q).value =
              (derefH (mapPut l.heap z { derefH l.heap z with next := some r }) q).value ∧
            (derefH (mapPut (mapPut l.heap z
              { derefH l.heap z with next := some r }) r
              { derefH (mapPut l.heap z { derefH l.heap z with next := some r }) r with
                  prev := some z }) q).ttl =
              (derefH (mapPut l.heap z { derefH l.heap z with next := some r }) q).ttl := by
          refine derefH_mapPut_pointer_fields ?_ ?_ ?_ q <;> rfl
        have f1 : (derefH (mapPut l.heap z { derefH l.heap z with next := some r }) q).key =
              (derefH l.heap q).key ∧
            (derefH (mapPut l.heap z { derefH l.heap z with next := some r }) q).value =
              (derefH l.heap q).value ∧
            (derefH (mapPut l.heap z { derefH l.heap z with next := some r }) q).ttl =
              (derefH l.heap q).ttl := by
          refine derefH_mapPut_pointer_fields ?_ ?_ ?_ q <;> rfl
        exact ⟨f2.1.trans f1.1, f2.2.1.trans f1.2.1, f2.2.2.trans f1.2.2⟩
      · intro q hq
        simp only [hev]
        exact isSome_mapPut _ _ _ (isSome_mapPut _ _ _ hq)

/-- Two heaps with the same `key`/`value`/`ttl` at every pointer, the second
allocated wherever the first is (pointer-field writes only). -/
def heapSameFields [Inhabited Val] (h h' : List (Nat × Node Val)) : Prop :=
  ∀ q, (derefH h' q).key = (derefH h q).key ∧
       (derefH h' q).value = (derefH h q).value ∧
       (derefH h' q).ttl = (derefH h q).ttl ∧
       ((mapGet h q).isSome = true → (mapGet h' q).isSome = true)

theorem heapSameFields_refl [Inhabited Val] (h : List (Nat × Node Val)) :
    heapSameFields h h := fun _ => ⟨rfl, rfl, rfl, fun hq => hq⟩

theorem heapSameFields_trans [Inhabited Val] {h1 h2 h3 : List (Nat × Node Val)}
    (a : heapSameFields h1 h2) (b : heapSameFields h2 h3) : heapSameFields h1 h3 :=
  fun q => ⟨(b q).1.trans (a q).1, (b q).2.1.trans (a q).2.1,
    (b q).2.2.1.trans (a q).2.2.1, fun hq => (b q).2.2.2 ((a q).2.2.2 hq)⟩

theorem heapSameFields_mapPut [Inhabited Val] {h : List (Nat × Node Val)} {x : Nat}
    {nd : Node Val} (hk : nd.key = (derefH h x).key)
    (hv : nd.value = (derefH h x).value) (ht : nd.ttl = (derefH h x).ttl) :
    heapSameFields h (mapPut h x nd) := by
  intro q
  obtain ⟨h1, h2, h3⟩ := derefH_mapPut_pointer_fields hk hv ht q
  exact ⟨h1, h2, h3, fun hq => isSome_mapPut _ _ _ hq⟩

theorem heapSameFields_set_prev [Inhabited Val] (h : List (Nat × Node Val)) (x : Nat)
    (v : Option Nat) : heapSameFields h (mapPut h x { derefH h x with prev := v }) :=
  heapSameFields_mapPut rfl rfl rfl

theorem heapSameFields_set_next [Inhabited Val] (h : List (Nat × Node Val)) (x : Nat)
    (v : Option Nat) : heapSameFields h (mapPut h x { derefH h x with next := v }) :=
  heapSameFields_mapPut rfl rfl rfl

/-- Rebuild the invariant when the recency list is reordered (same pointers)
and the index, length and node payloads are untouched — the `updateNode`
case. -/
theorem reorder_inv_of_parts [Inhabited Val] {l l' : LRUCache Val}
    {ps ps' : List Nat} (hInv : Inv l ps)
    (hmem : ∀ q, q ∈ ps' ↔ q ∈ ps) (hlen' : ps'.length = ps.length)
    (hnodup' : ps'.Nodup)
    (hvals : l'.values = l.values) (hlen : l'.len = l.len) (hcap : l'.cap = l.cap)
    (hfields : heapSameFields l.heap l'.heap)
    (hchain : listOk l' ps' = true)
    (hheaplt : ∀ pn ∈ l'.heap, pn.1 < l'.nextAlloc) :
    Inv l' ps' := by
  refine ⟨hchain, hnodup', ?_, ?_, ?_, ?_, ?_, ?_, ?_, ?_, hheaplt⟩
  · rw [hlen, hInv.len_eq, hlen']
  · rw [hlen, hcap]; exact hInv.len_le
  · rw [hcap]; exact hInv.cap_pos
  · rw [hcap]; exact hInv.cap_lt
  · rw [hvals]; exact hInv.vals_distinct
  · intro kp hm
    rw [hvals] at hm
    obtain ⟨hin, hkey⟩ := hInv.vals_sound kp hm
    refine ⟨(hmem kp.2).mpr hin, ?_⟩
    simp only [deref_eq] at hkey ⊢
    rw [(hfields kp.2).1]
    exact hkey
  · intro q hq
    simp only [deref_eq]
    rw [hvals, (hfields q).1]
    have := hInv.vals_complete q ((hmem q).mp hq)
    simpa [deref_eq] using this
  · rw [hvals, hInv.vals_len, hlen']


/-- Full effect of `updateNode`: the node `p` moves to the head of the
recency list; index, counters and node payloads are untouched. -/
theorem updateNode_spec [Inhabited Val] {l : LRUCache Val} {ps xs ys : List Nat}
    {p : Nat} (hInv : Inv l ps) (hps : ps = xs ++ p :: ys) :
    Inv (updateNode l p) (p :: (xs ++ ys)) ∧
    (updateNode l p).values = l.values ∧
    (updateNode l p).len = l.len ∧
    (updateNode l p).cap = l.cap ∧
    (updateNode l p).defaultTTL = l.defaultTTL ∧
    (updateNode l p).nextAlloc = l.nextAlloc ∧
    heapSameFields l.heap (updateNode l p).heap := by
  subst hps
  have hnd := hInv.nodup
  rcases List.nodup_append.mp hnd with ⟨hndxs, hndpys, hdisj⟩
  rcases List.nodup_cons.mp hndpys with ⟨hpnys, hndys⟩
  have hpnxs : p ∉ xs := fun hc => hdisj hc (List.mem_cons_self _ _)
  have hchain := hInv.chain
  rw [listOk_def] at hchain
  rcases segB_append_iff.mp hchain with ⟨pr0, cur0, hxs, hpys'⟩
  rcases segB_cons_iff.mp hpys' with ⟨hcur0, halivep, hprevp, hysseg⟩
  cases xs with
  | nil =>
    rcases segB_nil_iff.mp hxs with ⟨hpr0, hcur0'⟩
    have hmost : l.most = some p := by rw [hcur0', hcur0]
    have hev : updateNode l p = l := by
      simp [updateNode, hmost]
    rw [hev]
    refine ⟨?_, rfl, rfl, rfl, rfl, rfl, heapSameFields_refl _⟩
    have heq : p :: ([] ++ ys) = [] ++ p :: ys := rfl
    rw [heq]
    exact hInv
  | cons u xs'' =>
    have hndxs0 := hndxs
    rcases List.eq_nil_or_concat (u :: xs'') with hcon | ⟨xs1, z, hcon⟩
    · exact absurd hcon (by simp)
    rw [List.concat_eq_append] at hcon
    have humem : u ∈ u :: xs'' := List.mem_cons_self _ _
    have hup : u ≠ p := fun hc => hpnxs (hc ▸ humem)
    have hpu : p ≠ u := fun hc => hup hc.symm
    have hunxs'' : u ∉ xs'' := (List.nodup_cons.mp hndxs0).1
    have hmostu : l.most = some u := by
      rw [hInv.most_eq]; rfl
    have hpm : some p ≠ l.most := by
      rw [hmostu]
      intro hc
      exact hup (Option.some.inj hc).symm
    have hunys : u ∉ ys := fun hc => hdisj humem (List.mem_cons_of_mem _ hc)
    rw [hcon] at hxs hndxs hpnxs hdisj hInv
    have hzxs : z ∈ xs1 ++ [z] := List.mem_append.mpr (Or.inr (List.mem_cons_self _ _))
    have hzp : z ≠ p := fun hc => hpnxs (hc ▸ hzxs)
    have hzxs1 : z ∉ xs1 := by
      rcases List.nodup_append.mp hndxs with ⟨_, _, hdj⟩
      exact fun hc => hdj hc (List.mem_cons_self _ _)
    rcases segB_handoff hxs with ⟨habs, _, _⟩ | ⟨z', hlast, hpr0, hcur0z, halivez⟩
    · exact absurd habs (by simp)
    have hzz' : z = z' := by
      rw [List.getLast?_concat] at hlast
      exact Option.some.inj hlast
    subst hzz'
    have hprevp' : (derefH l.heap p).prev = some z := by rw [hprevp, hpr0]
    have hznext : (derefH l.heap z).next = some p := by rw [← hcur0z, hcur0]
    have hzny : z ∉ ys := fun hc => hdisj hzxs (List.mem_cons_of_mem _ hc)
    have hxs2 : segB l.heap none l.most (xs1 ++ [z]) (some z) (some p) = true := by
      rw [← hpr0, ← hcur0]
      exact hxs
    have hz_lt : z < l.nextAlloc := hInv.ps_lt_nextAlloc
      (List.mem_append.mpr (Or.inl hzxs))
    have hp_lt : p < l.nextAlloc := hInv.ps_lt_nextAlloc
      (List.mem_append.mpr (Or.inr (List.mem_cons_self _ _)))
    have hu_lt : u < l.nextAlloc := hInv.ps_lt_nextAlloc
      (List.mem_append.mpr (Or.inl (hcon ▸ humem)))
    rw [hcon]
    cases ys with
    | nil =>
      rcases segB_nil_iff.mp hysseg with ⟨hleast', hnextp⟩
      have hlp : l.least = some p := hleast'.symm
      have hev : updateNode l p =
          (let h1 := mapPut l.heap z { derefH l.heap z with next := none }
           let h3 := mapPut h1 p { derefH h1 p with prev := none }
           let h4 := mapPut h3 p { derefH h3 p with next := some u }
           let h5 := mapPut h4 u { derefH h4 u with prev := some p }
           { l with heap := h5, most := some p, least := some z }) := by
        simp [updateNode, hprevp', hnextp, hzp, hup, hpu, hpm, hmostu, hlp,
          derefH_mapPut, setNextPtr, setPrevPtr, updNode]
      rw [List.append_nil]
      have hsf : heapSameFields l.heap (updateNode l p).heap := by
        simp only [hev]
        exact heapSameFields_trans (heapSameFields_trans (heapSameFields_trans
          (heapSameFields_set_next _ _ _) (heapSameFields_set_prev _ _ _))
          (heapSameFields_set_next _ _ _)) (heapSameFields_set_prev _ _ _)
      have hd5p : derefH (updateNode l p).heap p =
          { derefH l.heap p with prev := none, next := some u } := by
        simp [hev, derefH_mapPut, hup, hzp]
      have halive5 : (mapGet (updateNode l p).heap p).isSome = true := by
        simp [hev, mapGet_mapPut, hup]
      have st1 : segB (mapPut l.heap z { derefH l.heap z with next := none })
          none (some u) (xs1 ++ [z]) (some z) none = true := by
        rw [← hmostu]
        exact segB_update_last_next hxs2 hzxs1
      have hchain2 : listOk (updateNode l p) (p :: (xs1 ++ [z])) = true := by
        rw [listOk_def]
        have hm5 : (updateNode l p).most = some p := by rw [hev]
        have hl5 : (updateNode l p).least = some z := by rw [hev]
        rw [hm5, hl5]
        refine segB_cons_iff.mpr ⟨rfl, halive5, ?_, ?_⟩
        · rw [hd5p]
        · rw [hd5p]
          show segB (updateNode l p).heap (some p) (some u) (xs1 ++ [z]) (some z)
            none = true
          simp only [hev]
          rw [← hcon]
          refine segB_update_head_prev_at (some p) none ?_ hunxs''
          rw [hcon, segB_frame hpnxs, segB_frame hpnxs]
          exact st1
      refine ⟨?_, by rw [hev], by rw [hev], by rw [hev], by rw [hev],
        by rw [hev], hsf⟩
      refine reorder_inv_of_parts hInv ?_ ?_ ?_ (by rw [hev]) (by rw [hev])
        (by rw [hev]) hsf hchain2 ?_
      · intro q
        simp only [List.mem_cons, List.mem_append, List.mem_singleton]
        tauto
      · simp only [List.length_cons, List.length_append, List.length_nil]
        try omega
      · exact List.nodup_cons.mpr ⟨hpnxs, hndxs⟩
      · intro pn hm
        simp only [hev] at hm ⊢
        exact heap_lt_mapPut (heap_lt_mapPut (heap_lt_mapPut (heap_lt_mapPut
          hInv.heap_lt hz_lt _) hp_lt _) hp_lt _) hu_lt _ pn hm
    | cons r ys' =>
      rcases segB_cons_iff.mp hysseg with ⟨hnextp, haliver, hrprev, hys'⟩
      rw [hnextp] at hysseg
      have hrys : r ∈ r :: ys' := List.mem_cons_self _ _
      have hrp : r ≠ p := fun hc => hpnys (hc ▸ hrys)
      have hrnys' : r ∉ ys' := (List.nodup_cons.mp hndys).1
      have hznys : z ∉ r :: ys' := fun hc => hdisj hzxs (List.mem_cons_of_mem _ hc)
      have hrnxs : r ∉ xs1 ++ [z] := fun hc => hdisj hc (List.mem_cons_of_mem _ hrys)
      have hleastne : l.least ≠ some p := by
        rcases segB_handoff hysseg with ⟨habs, _, _⟩ | ⟨zz, hlast2, hp2, _, _⟩
        · exact absurd habs (by simp)
        · rw [hp2]
          intro hc
          have hzzp : zz = p := Option.some.inj hc
          exact hpnys (hzzp ▸ mem_of_getLastQ hlast2)
      have hplne : some p ≠ l.least := fun hc => hleastne hc.symm
      have hev : updateNode l p =
          (let h1 := mapPut l.heap z { derefH l.heap z with next := some r }
           let h2 := mapPut h1 r { derefH h1 r with prev := some z }
           let h3 := mapPut h2 p { derefH h2 p with prev := none }
           let h4 := mapPut h3 p { derefH h3 p with next := some u }
           let h5 := mapPut h4 u { derefH h4 u with prev := some p }
           { l with heap := h5, most := some p }) := by
        simp [updateNode, hprevp', hnextp, hzp, hrp, hup, hpu, hpm, hmostu, hplne,
          derefH_mapPut, setNextPtr, setPrevPtr, updNode]
      have hsf : heapSameFields l.heap (updateNode l p).heap := by
        simp only [hev]
        exact heapSameFields_trans (heapSameFields_trans (heapSameFields_trans
          (heapSameFields_trans (heapSameFields_set_next _ _ _)
            (heapSameFields_set_prev _ _ _)) (heapSameFields_set_prev _ _ _))
          (heapSameFields_set_next _ _ _)) (heapSameFields_set_prev _ _ _)
      have hd5p : derefH (updateNode l p).heap p =
          { derefH l.heap p with prev := none, next := some u } := by
        simp [hev, derefH_mapPut, hup, hzp, hrp]
      have halive5 : (mapGet (updateNode l p).heap p).isSome = true := by
        simp [hev, mapGet_mapPut, hup]
      have st1 : segB (mapPut l.heap z { derefH l.heap z with next := some r })
          none (some u) (xs1 ++ [z]) (some z) (some r) = true := by
        rw [← hmostu]
        exact segB_update_last_next hxs2 hzxs1
      have sy1 : segB (mapPut l.heap z { derefH l.heap z with next := some r })
          (some p) (some r) (r :: ys') l.least none = true := by
        rw [segB_frame hznys]
        exact hysseg
      have hchain2 : listOk (updateNode l p) (p :: (xs1 ++ [z] ++ r :: ys')) = true := by
        rw [listOk_def]
        have hm5 : (updateNode l p).most = some p := by rw [hev]
        have hl5 : (updateNode l p).least = l.least := by rw [hev]
        rw [hm5, hl5]
        refine segB_cons_iff.mpr ⟨rfl, halive5, ?_, ?_⟩
        · rw [hd5p]
        · rw [hd5p]
          show segB (updateNode l p).heap (some p) (some u) (xs1 ++ [z] ++ r :: ys')
            l.least none = true
          refine segB_append_iff.mpr ⟨some z, some r, ?_, ?_⟩
          · show segB (updateNode l p).heap (some p) (some u) (xs1 ++ [z]) (some z)
              (some r) = true
            simp only [hev]
            rw [← hcon]
            refine segB_update_head_prev_at (some p) none ?_ hunxs''
            rw [hcon, segB_frame hpnxs, segB_frame hpnxs, segB_frame hrnxs]
            exact st1
          · show segB (updateNode l p).heap (some z) (some r) (r :: ys') l.least
              none = true
            simp only [hev]
            rw [segB_frame hunys, segB_frame hpnys, segB_frame hpnys]
            exact segB_update_head_prev_at (some z) (some p) sy1 hrnys'
      refine ⟨?_, by rw [hev], by rw [hev], by rw [hev], by rw [hev],
        by rw [hev], hsf⟩
      refine reorder_inv_of_parts hInv ?_ ?_ ?_ (by rw [hev]) (by rw [hev])
        (by rw [hev]) hsf hchain2 ?_
      · intro q
        simp only [List.mem_cons, List.mem_append, List.mem_singleton]
        tauto
      · simp only [List.length_cons, List.length_append, List.length_nil]
        try omega
      · refine List.nodup_cons.mpr ⟨?_, ?_⟩
        · intro hc
          rcases List.mem_append.mp hc with hx | hy
          · exact hpnxs hx
          · exact hpnys hy
        · exact List.Nodup.append hndxs hndys
            (fun a ha hay => hdisj ha (List.mem_cons_of_mem _ hay))
      · intro pn hm
        simp only [hev] at hm ⊢
        have hr_lt : r < l.nextAlloc := hInv.ps_lt_nextAlloc
          (List.mem_append.mpr (Or.inr (List.mem_cons_of_mem _ hrys)))
        exact heap_lt_mapPut (heap_lt_mapPut (heap_lt_mapPut (heap_lt_mapPut
          (heap_lt_mapPut hInv.heap_lt hz_lt _) hr_lt _) hp_lt _) hp_lt _)
          hu_lt _ pn hm

/-- A heap change that preserves `prev`, `next` and allocatedness of every
pointer of a segment preserves the segment. -/
theorem segB_congr [Inhabited Val] {h h' : List (Nat × Node Val)} {ps : List Nat}
    (hsame : ∀ q ∈ ps, (derefH h' q).prev = (derefH h q).prev ∧
      (derefH h' q).next = (derefH h q).next ∧
      ((mapGet h q).isSome = true → (mapGet h' q).isSome = true))
    {pr cur pr2 cur2 : Option Nat} (hseg : segB h pr cur ps pr2 cur2 = true) :
    segB h' pr cur ps pr2 cur2 = true := by
  induction ps generalizing pr cur with
  | nil => exact hseg
  | cons p rest ih =>
    rcases segB_cons_iff.mp hseg with ⟨hcur, halive, hprev, hseg'⟩
    obtain ⟨hp, hn, ha⟩ := hsame p (List.mem_cons_self _ _)
    refine segB_cons_iff.mpr ⟨hcur, ha halive, by rw [hp]; exact hprev, ?_⟩
    rw [hn]
    exact ih (fun q hq => hsame q (List.mem_cons_of_mem _ hq)) hseg'

/-- Overwriting `value` and `ttl` of a node that is in the recency list
(the in-place update of `Put` on an existing key) preserves the invariant. -/
theorem payload_write_inv [Inhabited Val] {l : LRUCache Val} {ps : List Nat}
    {p : Nat} (hInv : Inv l ps) (hp : p ∈ ps) (v : Val) (e : Int) :
    Inv (updNode l p (fun n => { n with value := v, ttl := e })) ps := by
  have halive := hInv.ps_alive hp
  have hplt := hInv.ps_lt_nextAlloc hp
  refine ⟨?_, hInv.nodup, hInv.len_eq, hInv.len_le, hInv.cap_pos, hInv.cap_lt,
    hInv.vals_distinct, ?_, ?_, hInv.vals_len, ?_⟩
  · have hchain := hInv.chain
    rw [listOk_def] at hchain ⊢
    refine segB_congr ?_ hchain
    intro q hq
    refine ⟨?_, ?_, ?_⟩
    · show (derefH (mapPut l.heap p _) q).prev = _
      rw [derefH_mapPut]
      by_cases hpq : p = q
      · subst hpq; simp
      · rw [if_neg hpq]
    · show (derefH (mapPut l.heap p _) q).next = _
      rw [derefH_mapPut]
      by_cases hpq : p = q
      · subst hpq; simp
      · rw [if_neg hpq]
    · intro hs
      show (mapGet (mapPut l.heap p _) q).isSome = true
      exact isSome_mapPut _ _ _ hs
  · intro kp hm
    obtain ⟨hin, hkey⟩ := hInv.vals_sound kp hm
    refine ⟨hin, ?_⟩
    simp only [deref_eq] at hkey ⊢
    show (derefH (mapPut l.heap p _) kp.2).key = kp.1
    rw [derefH_mapPut]
    by_cases hpq : p = kp.2
    · subst hpq
      simpa using hkey
    · rw [if_neg hpq]
      exact hkey
  · intro q hq
    have := hInv.vals_complete q hq
    simp only [deref_eq] at this ⊢
    show mapGet l.values (derefH (mapPut l.heap p _) q).key = some q
    rw [derefH_mapPut]
    by_cases hpq : p = q
    · subst hpq
      simpa using this
    · rw [if_neg hpq]
      exact this
  · intro pn hm
    show pn.1 < l.nextAlloc
    rcases mem_mapPut hm with hin | hnd
    · exact hInv.heap_lt pn hin
    · rw [hnd]
      exact hplt

/-- Rebuild the invariant after a fresh key was inserted at the head with
pointer `l.nextAlloc` (the `createNode` cases).  `kept` is the part of the
old recency list that survives (`ps` itself, or `ps` minus the evicted
tail). -/
theorem putNew_inv_of_parts [Inhabited Val] {l l' : LRUCache Val}
    {ps kept : List Nat} {key : String} {valsBase : List (String × Nat)}
    (hInv : Inv l ps)
    (hkeptsub : ∀ q ∈ kept, q ∈ ps) (hkeptnd : kept.Nodup)
    (hfresh : mapGet l.values key = none)
    (hbaseGet : ∀ q ∈ kept, mapGet valsBase ((derefH l.heap q).key) = some q)
    (hbaseSound : ∀ kp ∈ valsBase, kp.2 ∈ kept ∧ (derefH l.heap kp.2).key = kp.1)
    (hbaseDistinct : keysDistinct valsBase)
    (hbaseLen : valsBase.length = kept.length)
    (hbaseFresh : mapGet valsBase key = none)
    (hvals : l'.values = mapPut valsBase key l.nextAlloc)
    (hPkey : (derefH l'.heap l.nextAlloc).key = key)
    (hfields : ∀ q ∈ ps, (derefH l'.heap q).key = (derefH l.heap q).key)
    (hlen' : l'.len = kept.length + 1)
    (hlenle : l'.len ≤ l.cap)
    (hcap : l'.cap = l.cap)
    (hchain : listOk l' (l.nextAlloc :: kept) = true)
    (hheaplt : ∀ pn ∈ l'.heap, pn.1 < l'.nextAlloc) :
    Inv l' (l.nextAlloc :: kept) := by
  have hPfresh : l.nextAlloc ∉ kept := fun hc => hInv.fresh_not_mem (hkeptsub _ hc)
  have hkeyne : ∀ q ∈ kept, (derefH l.heap q).key ≠ key := by
    intro q hq hc
    have := hInv.vals_complete q (hkeptsub q hq)
    simp only [deref_eq] at this
    rw [hc, hfresh] at this
    exact Option.noConfusion this
  refine ⟨hchain, ?_, ?_, ?_, ?_, ?_, ?_, ?_, ?_, ?_, hheaplt⟩
  · exact List.nodup_cons.mpr ⟨hPfresh, hkeptnd⟩
  · rw [hlen', List.length_cons]
  · rw [hcap]; exact hlenle
  · rw [hcap]; exact hInv.cap_pos
  · rw [hcap]; exact hInv.cap_lt
  · rw [hvals]; exact keysDistinct_mapPut hbaseDistinct
  · intro kp hm
    rw [hvals] at hm
    rcases mem_mapPut hm with hin | hkp
    · obtain ⟨hq, hkey⟩ := hbaseSound kp hin
      refine ⟨List.mem_cons_of_mem _ hq, ?_⟩
      simp only [deref_eq]
      rw [hfields kp.2 (hkeptsub _ hq)]
      exact hkey
    · rw [hkp]
      exact ⟨List.mem_cons_self _ _, by simpa [deref_eq] using hPkey⟩
  · intro q hq
    rcases List.mem_cons.mp hq with hqP | hqk
    · subst hqP
      simp only [deref_eq]
      rw [hvals, hPkey, mapGet_mapPut, if_pos rfl]
    · simp only [deref_eq]
      rw [hvals, hfields q (hkeptsub _ hqk), mapGet_mapPut,
        if_neg (fun hc => hkeyne q hqk hc.symm)]
      exact hbaseGet q hqk
  · rw [hvals, mapPut_length_of_none hbaseFresh, hbaseLen, List.length_cons]
  
theorem putNew_noevict_spec [Inhabited Val] {l : LRUCache Val} {ps : List Nat}
    {key : String} {v : Val} {ttl now : Int} {ctx : Ctx}
    (hInv : Inv l ps) (hctx : ctx.done1 = false)
    (hfresh : mapGet l.values key = none) (hlen : l.len ≠ l.cap) :
    (Put l ctx key v ttl now).2 = .ok () ∧
    Inv (Put l ctx key v ttl now).1 (l.nextAlloc :: ps) ∧
    (Put l ctx key v ttl now).1.values = mapPut l.values key l.nextAlloc ∧
    (Put l ctx key v ttl now).1.len = l.len + 1 ∧
    (Put l ctx key v ttl now).1.cap = l.cap ∧
    (derefH (Put l ctx key v ttl now).1.heap l.nextAlloc).value = v ∧
    (derefH (Put l ctx key v ttl now).1.heap l.nextAlloc).ttl =
      now + (if ttl = 0 then l.defaultTTL else ttl) ∧
    (derefH (Put l ctx key v ttl now).1.heap l.nextAlloc).key = key := by
  have hlen_lt : l.len < l.cap := lt_of_le_of_ne hInv.len_le hlen
  have hlen_arith : (l.len + 1) % wordSize = l.len + 1 :=
    Nat.mod_eq_of_lt (lt_of_le_of_lt (Nat.succ_le_of_lt hlen_lt) hInv.cap_lt)
  have hPfresh : l.nextAlloc ∉ ps := hInv.fresh_not_mem
  have hbaseGet : ∀ q ∈ ps, mapGet l.values ((derefH l.heap q).key) = some q := by
    intro q hq
    simpa [deref_eq] using hInv.vals_complete q hq
  have hbaseSound : ∀ kp ∈ l.values, kp.2 ∈ ps ∧ (derefH l.heap kp.2).key = kp.1 := by
    intro kp hm
    simpa [deref_eq] using hInv.vals_sound kp hm
  cases ps with
  | nil =>
    have hmost : l.most = none := by rw [hInv.most_eq]; rfl
    have hleast : l.least = none := by rw [hInv.least_eq]; rfl
    have hlen0 : l.len = 0 := by rw [hInv.len_eq]; rfl
    have hev : Put l ctx key v ttl now = ({ l with
        heap := mapPut l.heap l.nextAlloc
          { prev := none, next := none, value := v, key := key,
            ttl := now + (if ttl = 0 then l.defaultTTL else ttl) },
        nextAlloc := l.nextAlloc + 1,
        most := some l.nextAlloc, least := some l.nextAlloc,
        len := (l.len + 1) % wordSize,
        values := mapPut l.values key l.nextAlloc }, .ok ()) := by
      simp [Put, createNode, hctx, hfresh, hmost, hleast, hlen]
    have hchain : listOk (Put l ctx key v ttl now).1 [l.nextAlloc] = true := by
      rw [listOk_def]
      simp only [hev]
      refine segB_cons_iff.mpr ⟨rfl, ?_, ?_, ?_⟩
      · simp [mapGet_mapPut]
      · simp [derefH_mapPut]
      · simp only [derefH_mapPut, if_pos rfl]
        exact segB_nil_iff.mpr ⟨rfl, rfl⟩
    have hvalsEq : (Put l ctx key v ttl now).1.values =
        mapPut l.values key l.nextAlloc := by rw [hev]
    have hPkeyEq : (derefH (Put l ctx key v ttl now).1.heap l.nextAlloc).key
        = key := by simp [hev, derefH_mapPut]
    have hlenEq : (Put l ctx key v ttl now).1.len = ([] : List Nat).length + 1 := by
      rw [hev]
      show (l.len + 1) % wordSize = ([] : List Nat).length + 1
      rw [hlen_arith, hlen0]
      rfl
    have hlenle : (Put l ctx key v ttl now).1.len ≤ l.cap := by
      rw [hev]
      show (l.len + 1) % wordSize ≤ l.cap
      rw [hlen_arith]
      omega
    have hheaplt : ∀ pn ∈ (Put l ctx key v ttl now).1.heap,
        pn.1 < (Put l ctx key v ttl now).1.nextAlloc := by
      intro pn hm
      simp only [hev] at hm ⊢
      rcases mem_mapPut hm with hin | hnd
      · exact Nat.lt_succ_of_lt (hInv.heap_lt pn hin)
      · rw [hnd]; exact Nat.lt_succ_self _
    refine ⟨by rw [hev], ?_, hvalsEq, ?_, by rw [hev], ?_, ?_, ?_⟩
    · exact putNew_inv_of_parts hInv (by simp) (by simp) hfresh hbaseGet
        hbaseSound hInv.vals_distinct (by simpa using hInv.vals_len) hfresh
        hvalsEq hPkeyEq (by simp) hlenEq hlenle (by rw [hev]) hchain hheaplt
    · rw [hev]
      show (l.len + 1) % wordSize = l.len + 1
      exact hlen_arith
    · simp [hev, derefH_mapPut]
    · simp [hev, derefH_mapPut]
    · simp [hev, derefH_mapPut]
  | cons m rest =>
    have hmost : l.most = some m := by rw [hInv.most_eq]; rfl
    have hleast_ne : ¬ l.least = none := by
      rw [hInv.least_eq]
      simp [List.getLast?_eq_none_iff]
    have hmP : m ≠ l.nextAlloc :=
      fun hc => hPfresh (hc ▸ List.mem_cons_self _ _)
    have hPm : l.nextAlloc ≠ m := fun hc => hmP hc.symm
    have hmrest : m ∉ rest := (List.nodup_cons.mp hInv.nodup).1
    have hev : Put l ctx key v ttl now = ({ l with
        heap := mapPut (mapPut l.heap l.nextAlloc
            { prev := none, next := some m, value := v, key := key,
              ttl := now + (if ttl = 0 then l.defaultTTL else ttl) }) m
          { derefH (mapPut l.heap l.nextAlloc
              { prev := none, next := some m, value := v, key := key,
                ttl := now + (if ttl = 0 then l.defaultTTL else ttl) }) m with
              prev := some l.nextAlloc },
        nextAlloc := l.nextAlloc + 1,
        most := some l.nextAlloc,
        len := (l.len + 1) % wordSize,
        values := mapPut l.values key l.nextAlloc }, .ok ()) := by
      simp [Put, createNode, hctx, hfresh, hmost, hleast_ne, hlen,
        setPrevPtr, updNode, deref_eq]
    have hchain : listOk (Put l ctx key v ttl now).1 (l.nextAlloc :: m :: rest)
        = true := by
      rw [listOk_def]
      simp only [hev]
      refine segB_cons_iff.mpr ⟨rfl, ?_, ?_, ?_⟩
      · simp [mapGet_mapPut, hmP]
      · simp [derefH_mapPut, hmP]
      · have hnext : (derefH (mapPut (mapPut l.heap l.nextAlloc
            { prev := none, next := some m, value := v, key := key,
              ttl := now + (if ttl = 0 then l.defaultTTL else ttl) }) m
            { derefH (mapPut l.heap l.nextAlloc
                { prev := none, next := some m, value := v, key := key,
                  ttl := now + (if ttl = 0 then l.defaultTTL else ttl) }) m with
                prev := some l.nextAlloc })
            l.nextAlloc).next = some m := by
          simp [derefH_mapPut, hmP]
        rw [hnext]
        have hchain0 := hInv.chain
        rw [listOk_def, hmost] at hchain0
        have hstep : segB (mapPut l.heap l.nextAlloc
            { prev := none, next := some m, value := v, key := key,
              ttl := now + (if ttl = 0 then l.defaultTTL else ttl) })
            none (some m) (m :: rest) l.least none = true := by
          rw [segB_frame hPfresh]
          exact hchain0
        exact segB_update_head_prev_at (some l.nextAlloc) none hstep hmrest
    have hvalsEq : (Put l ctx key v ttl now).1.values =
        mapPut l.values key l.nextAlloc := by rw [hev]
    have hPkeyEq : (derefH (Put l ctx key v ttl now).1.heap l.nextAlloc).key
        = key := by simp [hev, derefH_mapPut, hmP]
    have hfieldsEq : ∀ q ∈ m :: rest,
        (derefH (Put l ctx key v ttl now).1.heap q).key = (derefH l.heap q).key := by
      intro q hq
      simp only [hev]
      have hqP : l.nextAlloc ≠ q := fun hc => hPfresh (hc ▸ hq)
      by_cases hmq : m = q
      · subst hmq
        simp [derefH_mapPut, hqP]
      · simp [derefH_mapPut, hqP, hmq]
    have hlenEq : (Put l ctx key v ttl now).1.len = (m :: rest).length + 1 := by
      rw [hev]
      show (l.len + 1) % wordSize = (m :: rest).length + 1
      rw [hlen_arith, hInv.len_eq]
    have hlenle : (Put l ctx key v ttl now).1.len ≤ l.cap := by
      rw [hev]
      show (l.len + 1) % wordSize ≤ l.cap
      rw [hlen_arith]
      omega
    have hheaplt : ∀ pn ∈ (Put l ctx key v ttl now).1.heap,
        pn.1 < (Put l ctx key v ttl now).1.nextAlloc := by
      intro pn hm
      simp only [hev] at hm ⊢
      rcases mem_mapPut hm with hin | hnd
      · rcases mem_mapPut hin with hin2 | hnd2
        · exact Nat.lt_succ_of_lt (hInv.heap_lt pn hin2)
        · rw [hnd2]; exact Nat.lt_succ_self _
      · rw [hnd]
        exact Nat.lt_succ_of_lt (hInv.ps_lt_nextAlloc (List.mem_cons_self _ _))
    refine ⟨by rw [hev], ?_, hvalsEq, ?_, by rw [hev], ?_, ?_, ?_⟩
    · exact putNew_inv_of_parts hInv (fun q hq => hq) hInv.nodup hfresh
        hbaseGet hbaseSound hInv.vals_distinct hInv.vals_len hfresh
        hvalsEq hPkeyEq hfieldsEq hlenEq hlenle (by rw [hev]) hchain hheaplt
    · rw [hev]
      show (l.len + 1) % wordSize = l.len + 1
      exact hlen_arith
    · simp [hev, derefH_mapPut, hmP]
    · simp [hev, derefH_mapPut, hmP]
    · simp [hev, derefH_mapPut, hmP]


theorem putNew_evict_spec [Inhabited Val] {l : LRUCache Val} {ps qs : List Nat}
    {t : Nat} {key : String} {v : Val} {ttl now : Int} {ctx : Ctx}
    (hInv : Inv l ps) (hctx : ctx.done1 = false)
    (hfresh : mapGet l.values key = none) (hlen : l.len = l.cap)
    (hps : ps = qs ++ [t]) :
    (Put l ctx key v ttl now).2 = .ok () ∧
    Inv (Put l ctx key v ttl now).1 (l.nextAlloc :: qs) ∧
    (Put l ctx key v ttl now).1.values =
      mapPut (mapDel l.values ((derefH l.heap t).key)) key l.nextAlloc ∧
    (Put l ctx key v ttl now).1.len = l.len ∧
    (Put l ctx key v ttl now).1.cap = l.cap ∧
    (derefH (Put l ctx key v ttl now).1.heap l.nextAlloc).value = v ∧
    (derefH (Put l ctx key v ttl now).1.heap l.nextAlloc).ttl =
      now + (if ttl = 0 then l.defaultTTL else ttl) ∧
    (derefH (Put l ctx key v ttl now).1.heap l.nextAlloc).key = key := by
  subst hps
  have hleast : l.least = some t := by
    rw [hInv.least_eq, List.getLast?_concat]
  have htmem : t ∈ qs ++ [t] := List.mem_append.mpr (Or.inr (List.mem_cons_self _ _))
  have hPfresh : l.nextAlloc ∉ qs ++ [t] := hInv.fresh_not_mem
  have htP : t ≠ l.nextAlloc := fun hc => hPfresh (hc ▸ htmem)
  have hPt : l.nextAlloc ≠ t := fun hc => htP hc.symm
  rcases List.nodup_append.mp hInv.nodup with ⟨hndqs, _, hdisj⟩
  have htnqs : t ∉ qs := fun hc => hdisj hc (List.mem_cons_self _ _)
  have hchain0 := hInv.chain
  rw [listOk_def] at hchain0
  rcases segB_append_iff.mp hchain0 with ⟨prt, curt, hqs, htseg⟩
  rcases segB_cons_iff.mp htseg with ⟨hcurt, halivet, hprevt0, htail⟩
  rcases segB_nil_iff.mp htail with ⟨hleast2, hnextt⟩
  have hkeyt_lookup : mapGet l.values ((derefH l.heap t).key) = some t := by
    simpa [deref_eq] using hInv.vals_complete t htmem
  have hbaseFresh : mapGet (mapDel l.values ((derefH l.heap t).key)) key = none := by
    rw [mapGet_mapDel]
    by_cases hc : (derefH l.heap t).key = key
    · simp [hc]
    · simp [hc, hfresh]
  have hbaseDistinct := keysDistinct_mapDel ((derefH l.heap t).key) hInv.vals_distinct
  have hbaseLen : (mapDel l.values ((derefH l.heap t).key)).length = qs.length := by
    have h2 := mapDel_length hInv.vals_distinct hkeyt_lookup
    have h3 := hInv.vals_len
    simp only [List.length_append, List.length_cons, List.length_nil] at h3
    omega
  have hqnet : ∀ q ∈ qs, q ≠ t := fun q hq hc => htnqs (hc ▸ hq)
  have hkeys_ne : ∀ q ∈ qs, (derefH l.heap q).key ≠ (derefH l.heap t).key := by
    intro q hq hc
    have h1 : mapGet l.values ((derefH l.heap q).key) = some q := by
      simpa [deref_eq] using hInv.vals_complete q (List.mem_append.mpr (Or.inl hq))
    rw [hc, hkeyt_lookup] at h1
    exact hqnet q hq (Option.some.inj h1).symm
  have hbaseGet : ∀ q ∈ qs, mapGet (mapDel l.values ((derefH l.heap t).key))
      ((derefH l.heap q).key) = some q := by
    intro q hq
    rw [mapGet_mapDel, if_neg (fun hc => hkeys_ne q hq hc.symm)]
    simpa [deref_eq] using hInv.vals_complete q (List.mem_append.mpr (Or.inl hq))
  have hbaseSound : ∀ kp ∈ mapDel l.values ((derefH l.heap t).key),
      kp.2 ∈ qs ∧ (derefH l.heap kp.2).key = kp.1 := by
    intro kp hm
    rcases mem_mapDel.mp hm with ⟨hmem, hne⟩
    obtain ⟨hin, hkey⟩ := hInv.vals_sound kp hmem
    simp only [deref_eq] at hkey
    have hkp2 : kp.2 ≠ t := by
      intro hc
      rw [hc] at hkey
      exact hne (by rw [← hkey])
    refine ⟨?_, hkey⟩
    rcases List.mem_append.mp hin with hx | hy
    · exact hx
    · rcases List.mem_cons.mp hy with hc | hc
      · exact absurd hc hkp2
      · simp at hc
  have hlenq : l.len = qs.length + 1 := by
    have := hInv.len_eq
    simpa [List.length_append] using this
  cases qs with
  | nil =>
    rcases segB_nil_iff.mp hqs with ⟨hprt, hcurt'⟩
    have hmost : l.most = some t := by rw [hcurt', hcurt]
    have hev : Put l ctx key v ttl now = ({ l with
        heap := mapPut (mapPut (mapPut l.heap l.nextAlloc
            { prev := none, next := some t, value := v, key := key,
              ttl := now + (if ttl = 0 then l.defaultTTL else ttl) }) t
            { derefH (mapPut l.heap l.nextAlloc
                { prev := none, next := some t, value := v, key := key,
                  ttl := now + (if ttl = 0 then l.defaultTTL else ttl) }) t with
                prev := some l.nextAlloc }) l.nextAlloc
          { derefH (mapPut (mapPut l.heap l.nextAlloc
              { prev := none, next := some t, value := v, key := key,
                ttl := now + (if ttl = 0 then l.defaultTTL else ttl) }) t
              { derefH (mapPut l.heap l.nextAlloc
                  { prev := none, next := some t, value := v, key := key,
                    ttl := now + (if ttl = 0 then l.defaultTTL else ttl) }) t with
                  prev := some l.nextAlloc }) l.nextAlloc with next := none },
        nextAlloc := l.nextAlloc + 1,
        most := some l.nextAlloc, least := some l.nextAlloc,
        values := mapPut (mapDel l.values ((derefH l.heap t).key)) key
          l.nextAlloc }, .ok ()) := by
      simp [Put, createNode, hctx, hfresh, hmost, hleast, hlen, hPt,
        setPrevPtr, setNextPtr, updNode, derefH_mapPut, deref_eq]
    have hchain : listOk (Put l ctx key v ttl now).1 [l.nextAlloc] = true := by
      rw [listOk_def]
      simp only [hev]
      refine segB_cons_iff.mpr ⟨rfl, ?_, ?_, ?_⟩
      · simp [mapGet_mapPut]
      · simp [derefH_mapPut, hPt, htP]
      · have hn : (derefH (mapPut (mapPut (mapPut l.heap l.nextAlloc
            { prev := none, next := some t, value := v, key := key,
              ttl := now + (if ttl = 0 then l.defaultTTL else ttl) }) t
            { derefH (mapPut l.heap l.nextAlloc
                { prev := none, next := some t, value := v, key := key,
                  ttl := now + (if ttl = 0 then l.defaultTTL else ttl) }) t with
                prev := some l.nextAlloc }) l.nextAlloc
            { derefH (mapPut (mapPut l.heap l.nextAlloc
                { prev := none, next := some t, value := v, key := key,
                  ttl := now + (if ttl = 0 then l.defaultTTL else ttl) }) t
                { derefH (mapPut l.heap l.nextAlloc
                    { prev := none, next := some t, value := v, key := key,
                      ttl := now + (if ttl = 0 then l.defaultTTL else ttl) }) t with
                    prev := some l.nextAlloc }) l.nextAlloc with next := none })
            l.nextAlloc).next = none := by
          simp [derefH_mapPut]
        rw [hn]
        exact segB_nil_iff.mpr ⟨rfl, rfl⟩
    have hvalsEq : (Put l ctx key v ttl now).1.values =
        mapPut (mapDel l.values ((derefH l.heap t).key)) key l.nextAlloc := by
      rw [hev]
    have hPkeyEq : (derefH (Put l ctx key v ttl now).1.heap l.nextAlloc).key
        = key := by
      simp [hev, derefH_mapPut, htP]
    have hfieldsEq : ∀ q ∈ [] ++ [t],
        (derefH (Put l ctx key v ttl now).1.heap q).key = (derefH l.heap q).key := by
      intro q hq
      simp only [List.nil_append, List.mem_singleton] at hq
      subst hq
      simp [hev, derefH_mapPut, htP, hPt]
    have hlenEq : (Put l ctx key v ttl now).1.len = ([] : List Nat).length + 1 := by
      rw [hev]
      show l.len = ([] : List Nat).length + 1
      rw [hlenq]
    have hlenle : (Put l ctx key v ttl now).1.len ≤ l.cap := by
      rw [hev]
      show l.len ≤ l.cap
      exact hInv.len_le
    have hheaplt : ∀ pn ∈ (Put l ctx key v ttl now).1.heap,
        pn.1 < (Put l ctx key v ttl now).1.nextAlloc := by
      intro pn hm
      simp only [hev] at hm ⊢
      have htlt : t < l.nextAlloc := hInv.ps_lt_nextAlloc htmem
      rcases mem_mapPut hm with h1 | h1
      · rcases mem_mapPut h1 with h2 | h2
        · rcases mem_mapPut h2 with h3 | h3
          · exact Nat.lt_succ_of_lt (hInv.heap_lt pn h3)
          · rw [h3]; exact Nat.lt_succ_self _
        · rw [h2]; exact Nat.lt_succ_of_lt htlt
      · rw [h1]; exact Nat.lt_succ_self _
    refine ⟨by rw [hev], ?_, hvalsEq, by rw [hev], by rw [hev], ?_, ?_, ?_⟩
    · exact putNew_inv_of_parts hInv (by simp) (by simp) hfresh
        (by simp) hbaseSound hbaseDistinct (by simpa using hbaseLen) hbaseFresh
        hvalsEq hPkeyEq hfieldsEq hlenEq hlenle (by rw [hev]) hchain hheaplt
    · simp [hev, derefH_mapPut, htP]
    · simp [hev, derefH_mapPut, htP]
    · simp [hev, derefH_mapPut, htP]
  | cons m qs' =>
    have hmost : l.most = some m := by rw [hInv.most_eq]; rfl
    have hmmem : m ∈ m :: qs' := List.mem_cons_self _ _
    have hmP : m ≠ l.nextAlloc :=
      fun hc => hPfresh (hc ▸ List.mem_append.mpr (Or.inl hmmem))
    have hPm : l.nextAlloc ≠ m := fun hc => hmP hc.symm
    have hmt : m ≠ t := hqnet m hmmem
    have hmqs' : m ∉ qs' := (List.nodup_cons.mp hndqs).1
    rcases List.eq_nil_or_concat (m :: qs') with hcon | ⟨qs1, z, hcon⟩
    · exact absurd hcon (by simp)
    rw [List.concat_eq_append] at hcon
    have hzqs : z ∈ m :: qs' := by
      rw [hcon]
      exact List.mem_append.mpr (Or.inr (List.mem_cons_self _ _))
    have hzt : z ≠ t := hqnet z hzqs
    have hzP : z ≠ l.nextAlloc :=
      fun hc => hPfresh (hc ▸ List.mem_append.mpr (Or.inl hzqs))
    have hPz : l.nextAlloc ≠ z := fun hc => hzP hc.symm
    have hzqs1 : z ∉ qs1 := by
      have := hndqs
      rw [hcon] at this
      rcases List.nodup_append.mp this with ⟨_, _, hdj⟩
      exact fun hc => hdj hc (List.mem_cons_self _ _)
    rcases segB_handoff hqs with ⟨habs, _, _⟩ | ⟨z', hlast, hprt, hcurz, halivez⟩
    · exact absurd habs (by simp)
    have hzz' : z = z' := by
      rw [hcon, List.getLast?_concat] at hlast
      exact Option.some.inj hlast
    subst hzz'
    have hprevt : (derefH l.heap t).prev = some z := by rw [hprevt0, hprt]
    have hznext : (derefH l.heap z).next = some t := by rw [← hcurz, hcurt]
    have hqs2 : segB l.heap none (some m) (m :: qs') (some z) (some t) = true := by
      rw [← hmost, ← hprt, ← hcurt]
      exact hqs
    have hev : Put l ctx key v ttl now = ({ l with
        heap := mapPut (mapPut (mapPut l.heap l.nextAlloc
            { prev := none, next := some m, value := v, key := key,
              ttl := now + (if ttl = 0 then l.defaultTTL else ttl) }) m
            { derefH (mapPut l.heap l.nextAlloc
                { prev := none, next := some m, value := v, key := key,
                  ttl := now + (if ttl = 0 then l.defaultTTL else ttl) }) m with
                prev := some l.nextAlloc }) z
          { derefH (mapPut (mapPut l.heap l.nextAlloc
              { prev := none, next := some m, value := v, key := key,
                ttl := now + (if ttl = 0 then l.defaultTTL else ttl) }) m
              { derefH (mapPut l.heap l.nextAlloc
                  { prev := none, next := some m, value := v, key := key,
                    ttl := now + (if ttl = 0 then l.defaultTTL else ttl) }) m with
                  prev := some l.nextAlloc }) z with next := none },
        nextAlloc := l.nextAlloc + 1,
        most := some l.nextAlloc, least := some z,
        values := mapPut (mapDel l.values ((derefH l.heap t).key)) key
          l.nextAlloc }, .ok ()) := by
      simp [Put, createNode, hctx, hfresh, hmost, hleast, hlen, hPt, hmt, hprevt,
        setPrevPtr, setNextPtr, updNode, derefH_mapPut, deref_eq]
    have hchain : listOk (Put l ctx key v ttl now).1 (l.nextAlloc :: m :: qs')
        = true := by
      rw [listOk_def]
      simp only [hev]
      refine segB_cons_iff.mpr ⟨rfl, ?_, ?_, ?_⟩
      · simp [mapGet_mapPut, hzP, hmP]
      · simp [derefH_mapPut, hzP, hmP]
      · have hn : (derefH (mapPut (mapPut (mapPut l.heap l.nextAlloc
            { prev := none, next := some m, value := v, key := key,
              ttl := now + (if ttl = 0 then l.defaultTTL else ttl) }) m
            { derefH (mapPut l.heap l.nextAlloc
                { prev := none, next := some m, value := v, key := key,
                  ttl := now + (if ttl = 0 then l.defaultTTL else ttl) }) m with
                prev := some l.nextAlloc }) z
            { derefH (mapPut (mapPut l.heap l.nextAlloc
                { prev := none, next := some m, value := v, key := key,
                  ttl := now + (if ttl = 0 then l.defaultTTL else ttl) }) m
                { derefH (mapPut l.heap l.nextAlloc
                    { prev := none, next := some m, value := v, key := key,
                      ttl := now + (if ttl = 0 then l.defaultTTL else ttl) }) m with
                    prev := some l.nextAlloc }) z with next := none })
            l.nextAlloc).next = some m := by
          simp [derefH_mapPut, hzP, hmP]
        rw [hn]
        have st1 : segB (mapPut l.heap l.nextAlloc
            { prev := none, next := some m, value := v, key := key,
              ttl := now + (if ttl = 0 then l.defaultTTL else ttl) })
            none (some m) (m :: qs') (some z) (some t) = true := by
          rw [segB_frame (fun hc => hPfresh (List.mem_append.mpr (Or.inl hc)))]
          exact hqs2
        have st2 := segB_update_head_prev_at (some l.nextAlloc) none st1 hmqs'
        rw [hcon] at st2
        have st3 : segB (mapPut (mapPut (mapPut l.heap l.nextAlloc
            { prev := none, next := some m, value := v, key := key,
              ttl := now + (if ttl = 0 then l.defaultTTL else ttl) }) m
            { derefH (mapPut l.heap l.nextAlloc
                { prev := none, next := some m, value := v, key := key,
                  ttl := now + (if ttl = 0 then l.defaultTTL else ttl) }) m with
                prev := some l.nextAlloc }) z
            { derefH (mapPut (mapPut l.heap l.nextAlloc
                { prev := none, next := some m, value := v, key := key,
                  ttl := now + (if ttl = 0 then l.defaultTTL else ttl) }) m
                { derefH (mapPut l.heap l.nextAlloc
                    { prev := none, next := some m, value := v, key := key,
                      ttl := now + (if ttl = 0 then l.defaultTTL else ttl) }) m with
                    prev := some l.nextAlloc }) z with next := none })
            (some l.nextAlloc) (some m) (qs1 ++ [z]) (some z) none = true := by
          exact segB_update_last_next st2 hzqs1
        rw [← hcon] at st3
        exact st3
    have hvalsEq : (Put l ctx key v ttl now).1.values =
        mapPut (mapDel l.values ((derefH l.heap t).key)) key l.nextAlloc := by
      rw [hev]
    have hPkeyEq : (derefH (Put l ctx key v ttl now).1.heap l.nextAlloc).key
        = key := by
      simp [hev, derefH_mapPut, hzP, hmP]
    have hfieldsEq : ∀ q ∈ (m :: qs') ++ [t],
        (derefH (Put l ctx key v ttl now).1.heap q).key = (derefH l.heap q).key := by
      intro q hq
      have hqP : l.nextAlloc ≠ q :=
        fun hc => hPfresh (hc ▸ hq)
      simp only [hev]
      by_cases hzq : z = q
      · subst hzq
        by_cases hmq : m = z
        · simp [derefH_mapPut, hqP, hmq]
        · simp [derefH_mapPut, hqP, hmq]
      · by_cases hmq : m = q
        · subst hmq
          simp [derefH_mapPut, hqP, hzq]
        · simp [derefH_mapPut, hqP, hzq, hmq]
    have hlenEq : (Put l ctx key v ttl now).1.len = (m :: qs').length + 1 := by
      rw [hev]
      show l.len = (m :: qs').length + 1
      rw [hlenq]
    have hlenle : (Put l ctx key v ttl now).1.len ≤ l.cap := by
      rw [hev]
      show l.len ≤ l.cap
      exact hInv.len_le
    have hheaplt : ∀ pn ∈ (Put l ctx key v ttl now).1.heap,
        pn.1 < (Put l ctx key v ttl now).1.nextAlloc := by
      intro pn hm
      simp only [hev] at hm ⊢
      have hmlt : m < l.nextAlloc := hInv.ps_lt_nextAlloc
        (List.mem_append.mpr (Or.inl hmmem))
      have hzlt : z < l.nextAlloc := hInv.ps_lt_nextAlloc
        (List.mem_append.mpr (Or.inl hzqs))
      rcases mem_mapPut hm with h1 | h1
      · rcases mem_mapPut h1 with h2 | h2
        · rcases mem_mapPut h2 with h3 | h3
          · exact Nat.lt_succ_of_lt (hInv.heap_lt pn h3)
          · rw [h3]; exact Nat.lt_succ_self _
        · rw [h2]; exact Nat.lt_succ_of_lt hmlt
      · rw [h1]; exact Nat.lt_succ_of_lt hzlt
    refine ⟨by rw [hev], ?_, hvalsEq, by rw [hev], by rw [hev], ?_, ?_, ?_⟩
    · exact putNew_inv_of_parts hInv (fun q hq => List.mem_append.mpr (Or.inl hq))
        hndqs hfresh hbaseGet hbaseSound hbaseDistinct hbaseLen hbaseFresh
        hvalsEq hPkeyEq hfieldsEq hlenEq hlenle (by rw [hev]) hchain hheaplt
    · simp [hev, derefH_mapPut, hzP, hmP]
    · simp [hev, derefH_mapPut, hzP, hmP]
    · simp [hev, derefH_mapPut, hzP, hmP]


/-- `New` builds a cache satisfying the invariant with an empty recency
list. -/
theorem New_spec (Val : Type) [Inhabited Val] {cacheSize : Nat} {ttl : Int}
    (hpos : 0 < cacheSize) (hlt : cacheSize < wordSize) :
    ∃ l : LRUCache Val, New Val cacheSize ttl = .ok l ∧ Inv l [] ∧
      l.cap = cacheSize ∧ l.defaultTTL = ttl ∧ l.len = 0 ∧ l.values = [] ∧
      l.most = none ∧ l.least = none := by
  refine ⟨{
      defaultTTL := ttl, len := 0, cap := cacheSize, values := [],
      heap := [], nextAlloc := 0, most := none, least := none },
    ?_, ?_, rfl, rfl, rfl, rfl, rfl, rfl⟩
  · rw [New, if_neg (Nat.pos_iff_ne_zero.mp hpos)]
  · refine ⟨?_, by simp, rfl, Nat.zero_le _, hpos, hlt, by simp [keysDistinct],
      by simp, by simp, rfl, by simp⟩
    rw [listOk_def]
    exact segB_nil_iff.mpr ⟨rfl, rfl⟩

/-- `New` with capacity `0` fails with `ErrInvalidCacheSize`. -/
theorem New_zero_spec (Val : Type) [Inhabited Val] (ttl : Int) :
    New Val 0 ttl = .error .invalidCacheSize := rfl

/-- `EvictAll` with a live context empties the cache. -/
theorem evictAll_spec [Inhabited Val] {l : LRUCache Val} {ps : List Nat} {ctx : Ctx}
    (hInv : Inv l ps) (hctx : ctx.done2 = false) :
    (EvictAll l ctx).2 = .ok () ∧ Inv (EvictAll l ctx).1 [] ∧
    (EvictAll l ctx).1.values = [] ∧ (EvictAll l ctx).1.len = 0 ∧
    (EvictAll l ctx).1.most = none ∧ (EvictAll l ctx).1.least = none := by
  have hev : EvictAll l ctx =
      ({ l with values := [], len := 0, most := none, least := none }, .ok ()) := by
    simp [EvictAll, hctx]
  refine ⟨by rw [hev], ?_, by rw [hev], by rw [hev], by rw [hev], by rw [hev]⟩
  rw [hev]
  refine ⟨?_, by simp, rfl, Nat.zero_le _, hInv.cap_pos, hInv.cap_lt,
    by simp [keysDistinct], by simp, by simp, rfl, hInv.heap_lt⟩
  rw [listOk_def]
  exact segB_nil_iff.mpr ⟨rfl, rfl⟩

/-- `Put` on an existing key with a live context: in-place payload update and
move to the head. -/
theorem putExisting_spec [Inhabited Val] {l : LRUCache Val} {ps xs ys : List Nat}
    {p : Nat} {key : String} {v : Val} {ttl now : Int} {ctx : Ctx}
    (hInv : Inv l ps) (hctx : ctx.done1 = false)
    (hget : mapGet l.values key = some p) (hps : ps = xs ++ p :: ys) :
    (Put l ctx key v ttl now).2 = .ok () ∧
    Inv (Put l ctx key v ttl now).1 (p :: (xs ++ ys)) := by
  have hev : Put l ctx key v ttl now =
      (updateNode (updNode l p (fun n => { n with
        value := v,
        ttl := now + (if ttl = 0 then l.defaultTTL else ttl) })) p, .ok ()) := by
    simp [Put, hctx, hget]
  have hInv2 : Inv (updNode l p (fun n => { n with
      value := v,
      ttl := now + (if ttl = 0 then l.defaultTTL else ttl) })) ps :=
    payload_write_inv hInv (hInv.mem_of_lookup hget) _ _
  obtain ⟨h1, _⟩ := updateNode_spec hInv2 hps
  rw [hev]
  exact ⟨rfl, h1⟩

/-- `Get` on a present, unexpired key: hit, move to head, return the stored
value and the *zero* `expiresAt`. -/
theorem get_live_spec [Inhabited Val] {l : LRUCache Val} {ps xs ys : List Nat}
    {p : Nat} {key : String} {now : Int} {ctx : Ctx}
    (hInv : Inv l ps) (hctx : ctx.done2 = false)
    (hget : mapGet l.values key = some p)
    (hlive : ¬ now > (derefH l.heap p).ttl) (hps : ps = xs ++ p :: ys) :
    Get l ctx key now = (updateNode l p, .ok ((derefH l.heap p).value, 0)) ∧
    Inv (Get l ctx key now).1 (p :: (xs ++ ys)) := by
  obtain ⟨h1, _, _, _, _, _, hsf⟩ := updateNode_spec hInv hps
  have hval : (derefH (updateNode l p).heap p).value = (derefH l.heap p).value :=
    (hsf p).2.1
  have hev : Get l ctx key now =
      (updateNode l p, .ok ((derefH l.heap p).value, 0)) := by
    simp [Get, hctx, hget, hlive, hval]
  rw [hev]
  exact ⟨rfl, h1⟩

/-- `Get` on a present but expired key: the entry is evicted and the call
fails with `keyDoesNotExist`. -/
theorem get_expired_spec [Inhabited Val] {l : LRUCache Val} {ps xs ys : List Nat}
    {p : Nat} {key : String} {now : Int} {ctx : Ctx}
    (hInv : Inv l ps) (hctx : ctx.done2 = false)
    (hget : mapGet l.values key = some p)
    (hexp : now > (derefH l.heap p).ttl) (hps : ps = xs ++ p :: ys) :
    Get l ctx key now = (evictNode l p, .error .keyDoesNotExist) ∧
    Inv (Get l ctx key now).1 (xs ++ ys) ∧
    mapGet (Get l ctx key now).1.values key = none ∧
    (Get l ctx key now).1.len + 1 = l.len := by
  obtain ⟨h1, hvals, hlen, _, _, _, _, _⟩ := evictNode_spec hInv hps
  have hev : Get l ctx key now = (evictNode l p, .error .keyDoesNotExist) := by
    simp [Get, hctx, hget, hexp]
  have hkey : (derefH l.heap p).key = key := by
    simpa [deref_eq] using hInv.key_of_lookup hget
  refine ⟨hev, by rw [hev]; exact h1, ?_, by rw [hev]; exact hlen⟩
  rw [hev]
  show mapGet (evictNode l p).values key = none
  rw [hvals, hkey, mapGet_mapDel, if_pos rfl]

/-- `Get` on an absent key fails with `keyDoesNotExist` and changes nothing. -/
theorem get_absent_spec [Inhabited Val] (l : LRUCache Val) {key : String}
    (now : Int) {ctx : Ctx} (hctx : ctx.done2 = false)
    (hget : mapGet l.values key = none) :
    Get l ctx key now = (l, .error .keyDoesNotExist) := by
  simp [Get, hctx, hget]

/-- `Evict` on an absent key fails with `keyDoesNotExist` and changes
nothing. -/
theorem evict_absent_spec [Inhabited Val] (l : LRUCache Val) {key : String}
    {ctx : Ctx} (hctx : ctx.done2 = false)
    (hget : mapGet l.values key = none) :
    Evict l ctx key = (l, .error .keyDoesNotExist) := by
  simp [Evict, hctx, hget]

/-- `Evict` on a present key (expired or not — no expiry check): returns the
stored value and removes the entry from index and recency list. -/
theorem evict_present_spec [Inhabited Val] {l : LRUCache Val} {ps xs ys : List Nat}
    {p : Nat} {key : String} {ctx : Ctx}
    (hInv : Inv l ps) (hctx : ctx.done2 = false)
    (hget : mapGet l.values key = some p) (hps : ps = xs ++ p :: ys) :
    Evict l ctx key = (evictNode l p, .ok ((derefH l.heap p).value)) ∧
    Inv (Evict l ctx key).1 (xs ++ ys) ∧
    mapGet (Evict l ctx key).1.values key = none ∧
    (Evict l ctx key).1.len + 1 = l.len ∧
    (∀ k', k' ≠ key → mapGet (Evict l ctx key).1.values k' = mapGet l.values k') := by
  obtain ⟨h1, hvals, hlen, _, _, _, _, _⟩ := evictNode_spec hInv hps
  have hev : Evict l ctx key = (evictNode l p, .ok ((derefH l.heap p).value)) := by
    simp [Evict, hctx, hget, deref_eq]
  have hkey : (derefH l.heap p).key = key := by
    simpa [deref_eq] using hInv.key_of_lookup hget
  refine ⟨hev, by rw [hev]; exact h1, ?_, by rw [hev]; exact hlen, ?_⟩
  · rw [hev]
    show mapGet (evictNode l p).values key = none
    rw [hvals, hkey, mapGet_mapDel, if_pos rfl]
  · intro k' hk'
    rw [hev]
    show mapGet (evictNode l p).values k' = mapGet l.values k'
    rw [hvals, hkey, mapGet_mapDel, if_neg (fun hc => hk' hc.symm)]



/-- Effect of the `GetAll` scan loop over a snapshot of index bindings:
expired entries are evicted, live entries are reported in snapshot order as
parallel key/value lists, and the recency order of the surviving entries is
the original order (no `updateNode` happens). -/
theorem getAllLoop_spec [Inhabited Val] (now : Int) (h0 : List (Nat × Node Val)) :
    ∀ (snap : List (String × Nat)) (l : LRUCache Val) (ps : List Nat)
      (ks : List String) (vs : List Val),
      Inv l ps →
      heapSameFields h0 l.heap →
      (∀ kp ∈ snap, kp.2 ∈ ps ∧ (derefH h0 kp.2).key = kp.1) →
      (snap.map Prod.snd).Nodup →
      Inv (getAllLoop now l snap ks vs).1
        (ps.filter (fun q =>
          decide (¬(now > (derefH h0 q).ttl ∧ q ∈ snap.map Prod.snd)))) ∧
      (getAllLoop now l snap ks vs).2.1 =
        ks ++ (snap.filter
          (fun kp => decide (¬ now > (derefH h0 kp.2).ttl))).map Prod.fst ∧
      (getAllLoop now l snap ks vs).2.2 =
        vs ++ (snap.filter
          (fun kp => decide (¬ now > (derefH h0 kp.2).ttl))).map
            (fun kp => (derefH h0 kp.2).value) ∧
      (∀ k', mapGet l.values k' = none →
        mapGet (getAllLoop now l snap ks vs).1.values k' = none) ∧
      (∀ kp ∈ snap, now > (derefH h0 kp.2).ttl →
        mapGet (getAllLoop now l snap ks vs).1.values kp.1 = none) ∧
      heapSameFields h0 (getAllLoop now l snap ks vs).1.heap := by
  intro snap
  induction snap with
  | nil =>
    intro l ps ks vs hInv hsf hvalid hnd
    have hfil : ps.filter (fun q =>
        decide (¬(now > (derefH h0 q).ttl ∧
          q ∈ ([] : List (String × Nat)).map Prod.snd))) = ps := by
      refine List.filter_eq_self.mpr ?_
      intro q hq
      simp
    refine ⟨?_, by simp [getAllLoop], by simp [getAllLoop], ?_, by simp, ?_⟩
    · rw [hfil]
      exact hInv
    · intro k' h
      simpa [getAllLoop] using h
    · simpa [getAllLoop] using hsf
  | cons kp0 rest ih =>
    obtain ⟨k, p⟩ := kp0
    intro l ps ks vs hInv hsf hvalid hnd
    obtain ⟨hpmem, hpkey⟩ := hvalid (k, p) (List.mem_cons_self _ _)
    have hvalidrest : ∀ kp ∈ rest, kp.2 ∈ ps ∧ (derefH h0 kp.2).key = kp.1 :=
      fun kp hm => hvalid kp (List.mem_cons_of_mem _ hm)
    have hnd' : (p :: rest.map Prod.snd).Nodup := by simpa using hnd
    have hndrest : (rest.map Prod.snd).Nodup := (List.nodup_cons.mp hnd').2
    have hpnotrest : p ∉ rest.map Prod.snd := (List.nodup_cons.mp hnd').1
    have httl : (derefH l.heap p).ttl = (derefH h0 p).ttl := (hsf p).2.2.1
    by_cases hexp : now > (derefH h0 p).ttl
    · rcases List.append_of_mem hpmem with ⟨xs, ys, hps⟩
      obtain ⟨hInv', hvals', hlen', _, _, _, hfields', halive'⟩ :=
        evictNode_spec hInv hps
      have hstep : getAllLoop now l ((k, p) :: rest) ks vs =
          getAllLoop now (evictNode l p) rest ks vs := by
        simp [getAllLoop, httl, hexp]
      have hsf1 : heapSameFields l.heap (evictNode l p).heap := fun q =>
        ⟨(hfields' q).1, (hfields' q).2.1, (hfields' q).2.2, halive' q⟩
      have hsf' : heapSameFields h0 (evictNode l p).heap :=
        heapSameFields_trans hsf hsf1
      have hndps := hInv.nodup
      rw [hps] at hndps
      rcases List.nodup_append.mp hndps with ⟨hndxs, hndpys, hdisj⟩
      rcases List.nodup_cons.mp hndpys with ⟨hpnys, hndys⟩
      have hpnxs : p ∉ xs := fun hc => hdisj hc (List.mem_cons_self _ _)
      have hmemsplit : ∀ q, q ∈ ps → q ≠ p → q ∈ xs ++ ys := by
        intro q hq hqp
        rw [hps] at hq
        rcases List.mem_append.mp hq with hx | hy
        · exact List.mem_append.mpr (Or.inl hx)
        · rcases List.mem_cons.mp hy with hc | hc
          · exact absurd hc hqp
          · exact List.mem_append.mpr (Or.inr hc)
      have hvalidrest' : ∀ kp ∈ rest, kp.2 ∈ xs ++ ys ∧
          (derefH h0 kp.2).key = kp.1 := by
        intro kp hm
        obtain ⟨h1, h2⟩ := hvalidrest kp hm
        refine ⟨hmemsplit kp.2 h1 ?_, h2⟩
        intro hc
        exact hpnotrest (hc ▸ List.mem_map_of_mem Prod.snd hm)
      obtain ⟨ih1, ih2, ih3, ih4, ih5, ih6⟩ :=
        ih (evictNode l p) (xs ++ ys) ks vs hInv' hsf' hvalidrest' hndrest
      have hkeyp : (derefH l.heap p).key = k := by
        rw [(hsf p).1]
        exact hpkey
      have hdelnone : ∀ k', mapGet l.values k' = none →
          mapGet (evictNode l p).values k' = none := by
        intro k' h
        rw [hvals', mapGet_mapDel]
        by_cases hc : (derefH l.heap p).key = k'
        · simp [hc]
        · simp [hc, h]
      have hfilter_eq : ps.filter (fun q =>
          decide (¬(now > (derefH h0 q).ttl ∧
            q ∈ ((k, p) :: rest).map Prod.snd))) =
          (xs ++ ys).filter (fun q =>
            decide (¬(now > (derefH h0 q).ttl ∧ q ∈ rest.map Prod.snd))) := by
        rw [hps, List.filter_append, List.filter_append]
        have hxseq : xs.filter (fun q =>
            decide (¬(now > (derefH h0 q).ttl ∧
              q ∈ ((k, p) :: rest).map Prod.snd))) =
            xs.filter (fun q =>
              decide (¬(now > (derefH h0 q).ttl ∧ q ∈ rest.map Prod.snd))) := by
          refine List.filter_congr ?_
          intro q hq
          have hqp : ¬ q = p := fun hc => hpnxs (hc ▸ hq)
          refine decide_eq_decide.mpr ?_
          simp only [List.map_cons, List.mem_cons]
          tauto
        have hyseq : (p :: ys).filter (fun q =>
            decide (¬(now > (derefH h0 q).ttl ∧
              q ∈ ((k, p) :: rest).map Prod.snd))) =
            ys.filter (fun q =>
              decide (¬(now > (derefH h0 q).ttl ∧ q ∈ rest.map Prod.snd))) := by
          rw [List.filter_cons]
          have hp1 : (decide (¬(now > (derefH h0 p).ttl ∧
              p ∈ ((k, p) :: rest).map Prod.snd))) = false := by
            simp [hexp]
          rw [hp1]
          simp only [Bool.false_eq_true, if_false]
          refine List.filter_congr ?_
          intro q hq
          have hqp : ¬ q = p := fun hc => hpnys (hc ▸ hq)
          refine decide_eq_decide.mpr ?_
          simp only [List.map_cons, List.mem_cons]
          tauto
        rw [hxseq, hyseq]
      refine ⟨?_, ?_, ?_, ?_, ?_, ?_⟩
      · rw [hstep, hfilter_eq]
        exact ih1
      · rw [hstep, ih2, List.filter_cons]
        have hb : (decide (¬ now > (derefH h0 p).ttl)) = false := by simp [hexp]
        rw [hb]
        simp
      · rw [hstep, ih3, List.filter_cons]
        have hb : (decide (¬ now > (derefH h0 p).ttl)) = false := by simp [hexp]
        rw [hb]
        simp
      · intro k' h
        rw [hstep]
        exact ih4 k' (hdelnone k' h)
      · intro kp hm hexp2
        rcases List.mem_cons.mp hm with hc | hm'
        · rw [hstep, hc]
          apply ih4
          show mapGet (evictNode l p).values k = none
          rw [hvals', hkeyp, mapGet_mapDel, if_pos rfl]
        · rw [hstep]
          exact ih5 kp hm' hexp2
      · rw [hstep]
        exact ih6
    · have hval : (derefH l.heap p).value = (derefH h0 p).value := (hsf p).2.1
      have hstep : getAllLoop now l ((k, p) :: rest) ks vs =
          getAllLoop now l rest (ks ++ [k]) (vs ++ [(derefH h0 p).value]) := by
        simp [getAllLoop, httl, hexp, deref_eq, hval]
      obtain ⟨ih1, ih2, ih3, ih4, ih5, ih6⟩ :=
        ih l ps (ks ++ [k]) (vs ++ [(derefH h0 p).value]) hInv hsf hvalidrest
          hndrest
      have hfilter_eq : ps.filter (fun q =>
          decide (¬(now > (derefH h0 q).ttl ∧
            q ∈ ((k, p) :: rest).map Prod.snd))) =
          ps.filter (fun q =>
            decide (¬(now > (derefH h0 q).ttl ∧ q ∈ rest.map Prod.snd))) := by
        refine List.filter_congr ?_
        intro q hq
        refine decide_eq_decide.mpr ?_
        simp only [List.map_cons, List.mem_cons]
        by_cases hqp : q = p
        · subst hqp
          tauto
        · tauto
      refine ⟨?_, ?_, ?_, ?_, ?_, ?_⟩
      · rw [hstep, hfilter_eq]
        exact ih1
      · rw [hstep, ih2, List.filter_cons]
        have hb : (decide (¬ now > (derefH h0 p).ttl)) = true := by simp [hexp]
        rw [hb]
        simp
      · rw [hstep, ih3, List.filter_cons]
        have hb : (decide (¬ now > (derefH h0 p).ttl)) = true := by simp [hexp]
        rw [hb]
        simp
      · intro k' h
        rw [hstep]
        exact ih4 k' h
      · intro kp hm hexp2
        rcases List.mem_cons.mp hm with hc | hm'
        · rw [hc] at hexp2
          exact absurd hexp2 hexp
        · rw [hstep]
          exact ih5 kp hm' hexp2
      · rw [hstep]
        exact ih6


/-- `GetAll` with a live context: reports the live bindings of the index as
parallel key/value lists, evicts every expired entry it encounters, and keeps
the recency order of the surviving entries unchanged (a scan is not a use). -/
theorem GetAll_spec [Inhabited Val] {l : LRUCache Val} {ps : List Nat}
    {now : Int} {ctx : Ctx} (hInv : Inv l ps) (hctx : ctx.done2 = false) :
    (GetAll l ctx now).2 = .ok
      ((l.values.filter (fun kp => decide (¬ now > (derefH l.heap kp.2).ttl))).map
          Prod.fst,
       (l.values.filter (fun kp => decide (¬ now > (derefH l.heap kp.2).ttl))).map
          (fun kp => (derefH l.heap kp.2).value)) ∧
    Inv (GetAll l ctx now).1
      (ps.filter (fun q => decide (¬ now > (derefH l.heap q).ttl))) ∧
    (∀ k p, mapGet l.values k = some p → now > (derefH l.heap p).ttl →
      mapGet (GetAll l ctx now).1.values k = none) ∧
    (∀ k, mapGet l.values k = none → mapGet (GetAll l ctx now).1.values k = none) ∧
    heapSameFields l.heap (GetAll l ctx now).1.heap := by
  have hvnodup : l.values.Nodup :=
    List.Pairwise.imp (fun hab he => hab (congrArg Prod.fst he)) hInv.vals_distinct
  have hsndnodup : (l.values.map Prod.snd).Nodup := by
    refine List.Nodup.map_on ?_ hvnodup
    intro x hx y hy hxy
    obtain ⟨_, hkx⟩ := hInv.vals_sound x hx
    obtain ⟨_, hky⟩ := hInv.vals_sound y hy
    have h1 : x.1 = y.1 := by
      rw [← hkx, ← hky]
      show (derefH l.heap x.2).key = (derefH l.heap y.2).key
      rw [hxy]
    exact Prod.ext h1 hxy
  have hvalid : ∀ kp ∈ l.values, kp.2 ∈ ps ∧ (derefH l.heap kp.2).key = kp.1 :=
    fun kp hm => hInv.vals_sound kp hm
  obtain ⟨hInvL, hks, hvs, hmono, hexpn, hsf⟩ :=
    getAllLoop_spec now l.heap l.values l ps [] [] hInv
      (heapSameFields_refl l.heap) hvalid hsndnodup
  have hev : GetAll l ctx now =
      ((getAllLoop now l l.values [] []).1,
        .ok ((getAllLoop now l l.values [] []).2.1,
             (getAllLoop now l l.values [] []).2.2)) := by
    simp [GetAll, hctx]
  refine ⟨?_, ?_, ?_, ?_, ?_⟩
  · rw [hev]
    show Except.ok (_, _) = _
    rw [hks, hvs]
    simp
  · rw [hev]
    show Inv (getAllLoop now l l.values [] []).1 _
    have hfe : ps.filter (fun q => decide (¬ now > (derefH l.heap q).ttl)) =
        ps.filter (fun q =>
          decide (¬(now > (derefH l.heap q).ttl ∧ q ∈ l.values.map Prod.snd))) := by
      refine List.filter_congr ?_
      intro q hq
      have hqmem : q ∈ l.values.map Prod.snd := by
        have hc := hInv.vals_complete q hq
        exact List.mem_map.mpr ⟨((deref l q).key, q), mapGet_eq_some_mem hc, rfl⟩
      refine decide_eq_decide.mpr ?_
      constructor
      · intro h hand
        exact h hand.1
      · intro h ht
        exact h ⟨ht, hqmem⟩
    rw [hfe]
    exact hInvL
  · intro k p hg hexp
    rw [hev]
    have := hexpn (k, p) (mapGet_eq_some_mem hg) hexp
    exact this
  · intro k h
    rw [hev]
    exact hmono k h
  · rw [hev]
    exact hsf


/-- The states reachable from a freshly constructed cache by any sequence of
the five public operations (`cacheSize` is a Go `uint`, hence below `2^64`). -/
inductive Reachable [Inhabited Val] : LRUCache Val → Prop where
  | new (cacheSize : Nat) (ttl : Int) (l : LRUCache Val)
      (hlt : cacheSize < wordSize) (h : New Val cacheSize ttl = Except.ok l) :
      Reachable l
  | put (l : LRUCache Val) (ctx : Ctx) (key : String) (value : Val)
      (ttl now : Int) (h : Reachable l) :
      Reachable (Put l ctx key value ttl now).1
  | get (l : LRUCache Val) (ctx : Ctx) (key : String) (now : Int)
      (h : Reachable l) : Reachable (Get l ctx key now).1
  | getAll (l : LRUCache Val) (ctx : Ctx) (now : Int) (h : Reachable l) :
      Reachable (GetAll l ctx now).1
  | evict (l : LRUCache Val) (ctx : Ctx) (key : String) (h : Reachable l) :
      Reachable (Evict l ctx key).1
  | evictAll (l : LRUCache Val) (ctx : Ctx) (h : Reachable l) :
      Reachable (EvictAll l ctx).1

/-- Every reachable state satisfies the representation invariant for some
recency list `ps`. -/
theorem reachable_inv [Inhabited Val] {l : LRUCache Val} (h : Reachable l) :
    ∃ ps, Inv l ps := by
  induction h with
  | new cacheSize ttl l hlt hok =>
    by_cases hz : cacheSize = 0
    · subst hz
      rw [New, if_pos rfl] at hok
      exact absurd hok (by simp)
    · have hspec : ∃ l2 : LRUCache Val, New Val cacheSize ttl = .ok l2 ∧
          Inv l2 [] ∧ l2.cap = cacheSize ∧ l2.defaultTTL = ttl ∧ l2.len = 0 ∧
          l2.values = [] ∧ l2.most = none ∧ l2.least = none :=
        New_spec Val (Nat.pos_of_ne_zero hz) hlt
      obtain ⟨l2, hok2, hInv2, _⟩ := hspec
      have hll : l = l2 := by
        rw [hok] at hok2
        exact Except.ok.inj hok2
      rw [hll]
      exact ⟨[], hInv2⟩
  | put l ctx key value ttl now h ih =>
    obtain ⟨ps, hInv⟩ := ih
    by_cases hctx : ctx.done1 = true
    · have he : (Put l ctx key value ttl now).1 = l := by
        simp [Put, hctx]
      rw [he]
      exact ⟨ps, hInv⟩
    · have hctx2 : ctx.done1 = false := by
        cases hc : ctx.done1
        · rfl
        · exact absurd hc hctx
      cases hget : mapGet l.values key with
      | some p =>
        rcases List.append_of_mem (hInv.mem_of_lookup hget) with ⟨xs, ys, hps⟩
        obtain ⟨_, hInv2⟩ := putExisting_spec hInv hctx2 hget hps
        exact ⟨_, hInv2⟩
      | none =>
        by_cases hlen : l.len = l.cap
        · rcases List.eq_nil_or_concat ps with hc | ⟨qs, t, hcon⟩
          · exfalso
            have h0 : l.len = 0 := by
              rw [hInv.len_eq, hc]
              rfl
            have := hInv.cap_pos
            omega
          · rw [List.concat_eq_append] at hcon
            obtain ⟨_, hInv2, _⟩ := putNew_evict_spec hInv hctx2 hget hlen hcon
            exact ⟨_, hInv2⟩
        · obtain ⟨_, hInv2, _⟩ := putNew_noevict_spec hInv hctx2 hget hlen
          exact ⟨_, hInv2⟩
  | get l ctx key now h ih =>
    obtain ⟨ps, hInv⟩ := ih
    by_cases hctx : ctx.done2 = true
    · have he : (Get l ctx key now).1 = l := by
        simp [Get, hctx]
      rw [he]
      exact ⟨ps, hInv⟩
    · have hctx2 : ctx.done2 = false := by
        cases hc : ctx.done2
        · rfl
        · exact absurd hc hctx
      cases hget : mapGet l.values key with
      | none =>
        have he := get_absent_spec l now hctx2 hget
        rw [he]
        exact ⟨ps, hInv⟩
      | some p =>
        rcases List.append_of_mem (hInv.mem_of_lookup hget) with ⟨xs, ys, hps⟩
        by_cases hexp : now > (derefH l.heap p).ttl
        · obtain ⟨_, hInv2, _⟩ := get_expired_spec hInv hctx2 hget hexp hps
          exact ⟨_, hInv2⟩
        · obtain ⟨_, hInv2⟩ := get_live_spec hInv hctx2 hget hexp hps
          exact ⟨_, hInv2⟩
  | getAll l ctx now h ih =>
    obtain ⟨ps, hInv⟩ := ih
    by_cases hctx : ctx.done2 = true
    · have he : (GetAll l ctx now).1 = l := by
        simp [GetAll, hctx]
      rw [he]
      exact ⟨ps, hInv⟩
    · have hctx2 : ctx.done2 = false := by
        cases hc : ctx.done2
        · rfl
        · exact absurd hc hctx
      obtain ⟨_, hInv2, _⟩ := GetAll_spec hInv hctx2
      exact ⟨_, hInv2⟩
  | evict l ctx key h ih =>
    obtain ⟨ps, hInv⟩ := ih
    by_cases hctx : ctx.done2 = true
    · have he : (Evict l ctx key).1 = l := by
        simp [Evict, hctx]
      rw [he]
      exact ⟨ps, hInv⟩
    · have hctx2 : ctx.done2 = false := by
        cases hc : ctx.done2
        · rfl
        · exact absurd hc hctx
      cases hget : mapGet l.values key with
      | none =>
        have he := evict_absent_spec l hctx2 hget
        rw [he]
        exact ⟨ps, hInv⟩
      | some p =>
        rcases List.append_of_mem (hInv.mem_of_lookup hget) with ⟨xs, ys, hps⟩
        obtain ⟨_, hInv2, _⟩ := evict_present_spec hInv hctx2 hget hps
        exact ⟨_, hInv2⟩
  | evictAll l ctx h ih =>
    obtain ⟨ps, hInv⟩ := ih
    by_cases hctx : ctx.done2 = true
    · have he : (EvictAll l ctx).1 = l := by
        simp [EvictAll, hctx]
      rw [he]
      exact ⟨ps, hInv⟩
    · have hctx2 : ctx.done2 = false := by
        cases hc : ctx.done2
        · rfl
        · exact absurd hc hctx
      obtain ⟨_, hInv2, _⟩ := evictAll_spec hInv hctx2
      exact ⟨_, hInv2⟩

/-- A `segB` segment ending in `next = none` is exactly what `walkFrom`
produces, given enough fuel. -/
theorem walkFrom_of_segB [Inhabited Val] {h : List (Nat × Node Val)} :
    ∀ (ps : List Nat) (fuel : Nat) (pr cur pr2 : Option Nat),
      segB h pr cur ps pr2 none = true → ps.length ≤ fuel →
      walkFrom h fuel cur = ps := by
  intro ps
  induction ps with
  | nil =>
    intro fuel pr cur pr2 hseg hfl
    obtain ⟨_, hcur⟩ := segB_nil_iff.mp hseg
    subst hcur
    cases fuel with
    | zero => rfl
    | succ n => rfl
  | cons p rest ih =>
    intro fuel pr cur pr2 hseg hfl
    obtain ⟨hcur, _, _, hseg2⟩ := segB_cons_iff.mp hseg
    subst hcur
    cases fuel with
    | zero => exact absurd hfl (by simp)
    | succ n =>
      show p :: walkFrom h n (derefH h p).next = p :: rest
      rw [ih n (some p) (derefH h p).next pr2 hseg2
        (Nat.le_of_succ_le_succ hfl)]

/-- The recency list of an invariant state is no longer than the heap. -/
theorem Inv.ps_length_le_heap [Inhabited Val] {l : LRUCache Val} {ps : List Nat}
    (hInv : Inv l ps) : ps.length ≤ l.heap.length := by
  have hsub : ∀ p ∈ ps, p ∈ l.heap.map Prod.fst := by
    intro p hp
    rcases Option.isSome_iff_exists.mp (hInv.ps_alive hp) with ⟨nd, hnd⟩
    exact List.mem_map.mpr ⟨(p, nd), mapGet_eq_some_mem hnd, rfl⟩
  calc ps.length = ps.toFinset.card :=
        (List.toFinset_card_of_nodup hInv.nodup).symm
    _ ≤ (l.heap.map Prod.fst).toFinset.card := by
        refine Finset.card_le_card ?_
        intro x hx
        exact List.mem_toFinset.mpr (hsub x (List.mem_toFinset.mp hx))
    _ ≤ (l.heap.map Prod.fst).length := List.toFinset_card_le _
    _ = l.heap.length := List.length_map _ _

/-- Walking the recency list from `most` visits exactly the invariant list
`ps`. -/
theorem walkList_eq [Inhabited Val] {l : LRUCache Val} {ps : List Nat}
    (hInv : Inv l ps) : walkList l = ps := by
  have hchain := hInv.chain
  rw [listOk_def] at hchain
  refine walkFrom_of_segB ps (l.heap.length + 1) none l.most l.least hchain ?_
  exact Nat.le_succ_of_le hInv.ps_length_le_heap


/-! ### Small consequences used when settling the claims -/

theorem mapGet_of_mem_distinct {κ α : Type} [DecidableEq κ]
    {h : List (κ × α)} (hd : keysDistinct h) {kp : κ × α} (hm : kp ∈ h) :
    mapGet h kp.1 = some kp.2 := by
  induction h with
  | nil => cases hm
  | cons kv rest ih =>
    obtain ⟨k, v⟩ := kv
    obtain ⟨hhead, hrest⟩ := keysDistinct_cons.mp hd
    rcases List.mem_cons.mp hm with hc | hc
    · rw [hc]
      exact mapGet_cons_eq k v rest
    · have hne : k ≠ kp.1 := hhead kp hc
      rw [mapGet_cons_ne hne]
      exact ih hrest hc

theorem not_mem_filter_keys_of_mapGet_none {κ α : Type} [DecidableEq κ]
    {h : List (κ × α)} {k : κ} (hk : mapGet h k = none)
    (f : κ × α → Bool) : k ∉ (h.filter f).map Prod.fst := by
  intro hc
  rcases List.mem_map.mp hc with ⟨kp, hmem, hfst⟩
  exact (mapGet_eq_none_iff.mp hk kp (List.mem_filter.mp hmem).1) hfst

/-! ### Concrete states used to exercise the claims (`Val := Int`) -/

def ctxLive : Ctx := ⟨false, false⟩

def newCache1 : LRUCache Int :=
  { defaultTTL := 60, len := 0, cap := 1, values := [], heap := [],
    nextAlloc := 0, most := none, least := none }

def newCache2 : LRUCache Int :=
  { defaultTTL := 60, len := 0, cap := 2, values := [], heap := [],
    nextAlloc := 0, most := none, least := none }

/-- C1: for any sequence of `Put`s past `capacity` distinct keys the cache
never holds more than `capacity` entries, and a capacity overflow evicts
exactly the tail (least recently touched) entry of the recency list. -/
theorem claim_C1 [Inhabited Val] {l : LRUCache Val} (h : Reachable l) :
    (l.values.length ≤ l.cap ∧ l.len ≤ l.cap) ∧
    (∀ (ps : List Nat) (ctx : Ctx) (key : String) (value : Val) (ttl now : Int),
      Inv l ps → ctx.done1 = false → mapGet l.values key = none →
      l.len = l.cap →
      ∃ qs t, ps = qs ++ [t] ∧ l.least = some t ∧
        (Put l ctx key value ttl now).2 = .ok () ∧
        Inv (Put l ctx key value ttl now).1 (l.nextAlloc :: qs) ∧
        mapGet (Put l ctx key value ttl now).1.values ((derefH l.heap t).key) =
          none ∧
        (∀ k2, k2 ≠ (derefH l.heap t).key → k2 ≠ key →
          mapGet (Put l ctx key value ttl now).1.values k2 =
            mapGet l.values k2)) := by
  obtain ⟨ps0, hInv0⟩ := reachable_inv h
  constructor
  · constructor
    · rw [hInv0.vals_len, ← hInv0.len_eq]
      exact hInv0.len_le
    · exact hInv0.len_le
  · intro ps ctx key value ttl now hInv hctx hget hlen
    rcases List.eq_nil_or_concat ps with hc | ⟨qs, t, hcon⟩
    · exfalso
      have h0 : l.len = 0 := by
        rw [hInv.len_eq, hc]
        rfl
      have := hInv.cap_pos
      omega
    · rw [List.concat_eq_append] at hcon
      obtain ⟨hok, hInv2, hvals, _⟩ := putNew_evict_spec hInv hctx hget hlen hcon
      have hleast : l.least = some t := by
        rw [hInv.least_eq, hcon, List.getLast?_append]
        rfl
      have htmem : t ∈ ps := by
        rw [hcon]
        exact List.mem_append.mpr (Or.inr (List.mem_cons_self _ _))
      have hkeyt : mapGet l.values ((derefH l.heap t).key) = some t := by
        simpa [deref_eq] using hInv.vals_complete t htmem
      have hkne : (derefH l.heap t).key ≠ key := by
        intro hc2
        rw [hc2, hget] at hkeyt
        cases hkeyt
      refine ⟨qs, t, hcon, hleast, hok, hInv2, ?_, ?_⟩
      · rw [hvals, mapGet_mapPut, if_neg (fun hc2 => hkne hc2.symm),
          mapGet_mapDel, if_pos rfl]
      · intro k2 hk2t hk2key
        rw [hvals, mapGet_mapPut, if_neg (fun hc2 => hk2key hc2.symm),
          mapGet_mapDel, if_neg (fun hc2 => hk2t hc2.symm)]

/-- C1 exercised concretely: a third `Put` on a full capacity-1 cache evicts
the tail key `a`. -/
theorem claim_C1_witness :
    Reachable (Put newCache1 ctxLive "a" 1 10 0).1 ∧
    ((Put newCache1 ctxLive "a" 1 10 0).1.values.length ≤
        (Put newCache1 ctxLive "a" 1 10 0).1.cap ∧
      (Put newCache1 ctxLive "a" 1 10 0).1.len ≤
        (Put newCache1 ctxLive "a" 1 10 0).1.cap) ∧
    Inv (Put newCache1 ctxLive "a" 1 10 0).1 [0] ∧
    (∃ qs t, [0] = qs ++ [t] ∧
      (Put newCache1 ctxLive "a" 1 10 0).1.least = some t ∧
      (Put (Put newCache1 ctxLive "a" 1 10 0).1 ctxLive "b" 2 10 0).2 = .ok () ∧
      Inv (Put (Put newCache1 ctxLive "a" 1 10 0).1 ctxLive "b" 2 10 0).1
        ((Put newCache1 ctxLive "a" 1 10 0).1.nextAlloc :: qs) ∧
      mapGet (Put (Put newCache1 ctxLive "a" 1 10 0).1 ctxLive "b" 2 10 0).1.values
        ((derefH (Put newCache1 ctxLive "a" 1 10 0).1.heap t).key) = none ∧
      (∀ k2, k2 ≠ (derefH (Put newCache1 ctxLive "a" 1 10 0).1.heap t).key →
        k2 ≠ "b" →
        mapGet
          (Put (Put newCache1 ctxLive "a" 1 10 0).1 ctxLive "b" 2 10 0).1.values
          k2 =
          mapGet (Put newCache1 ctxLive "a" 1 10 0).1.values k2)) := by
  have h0 : Reachable newCache1 :=
    Reachable.new 1 60 newCache1 (by decide) rfl
  have h1 : Reachable (Put newCache1 ctxLive "a" 1 10 0).1 :=
    Reachable.put newCache1 ctxLive "a" 1 10 0 h0
  have hInv1 : Inv (Put newCache1 ctxLive "a" 1 10 0).1 [0] := by
    refine ⟨?_, ?_, ?_, ?_, ?_, ?_, ?_, ?_, ?_, ?_, ?_⟩ <;> decide
  have hmain := claim_C1 h1
  exact ⟨h1, hmain.1, hInv1,
    hmain.2 [0] ctxLive "b" 2 10 0 hInv1 rfl (by decide) (by decide)⟩


/-- C2: the spec promises that a live `Get` returns the value *and the
absolute expiry*, but the named return `expiresAt` is never assigned in the
source: here an entry stored with expiry `100` is returned with expiry `0`
(the zero `time.Time`). -/
theorem claim_C2 :
    (derefH (Put newCache2 ctxLive "k" 42 100 0).1.heap 0).ttl = 100 ∧
    (Get (Put newCache2 ctxLive "k" 42 100 0).1 ctxLive "k" 0).2 =
      .ok (42, 0) ∧
    (42, (derefH (Put newCache2 ctxLive "k" 42 100 0).1.heap 0).ttl) ≠
      ((42 : Int), (0 : Int)) := by
  refine ⟨rfl, rfl, ?_⟩
  decide

/-- C3: `Get` on a present but expired key removes the entry from the index
and the recency list, fails with `keyDoesNotExist`, and a subsequent `GetAll`
does not list the key. -/
theorem claim_C3 [Inhabited Val] {l : LRUCache Val} {ps xs ys : List Nat}
    {p : Nat} {key : String} {now : Int} {ctx : Ctx}
    (hInv : Inv l ps) (hctx : ctx.done2 = false)
    (hget : mapGet l.values key = some p)
    (hexp : now > (derefH l.heap p).ttl) (hps : ps = xs ++ p :: ys) :
    (Get l ctx key now).2 = .error .keyDoesNotExist ∧
    mapGet (Get l ctx key now).1.values key = none ∧
    Inv (Get l ctx key now).1 (xs ++ ys) ∧
    p ∉ xs ++ ys ∧
    (∀ (ctx2 : Ctx) (now2 : Int) (ks : List String) (vs : List Val),
      (GetAll (Get l ctx key now).1 ctx2 now2).2 = .ok (ks, vs) →
      key ∉ ks) := by
  obtain ⟨hev, hInv2, hnone, _⟩ := get_expired_spec hInv hctx hget hexp hps
  have hpnot : p ∉ xs ++ ys := by
    have hnd := hInv.nodup
    rw [hps] at hnd
    rcases List.nodup_append.mp hnd with ⟨_, hpys, hdisj⟩
    intro hc
    rcases List.mem_append.mp hc with hx | hy
    · exact hdisj hx (List.mem_cons_self _ _)
    · exact (List.nodup_cons.mp hpys).1 hy
  refine ⟨by rw [hev], hnone, hInv2, hpnot, ?_⟩
  intro ctx2 now2 ks vs hok
  cases hc2 : ctx2.done2 with
  | true =>
    exfalso
    have : (GetAll (Get l ctx key now).1 ctx2 now2).2 = .error .contextDone := by
      simp [GetAll, hc2]
    rw [this] at hok
    cases hok
  | false =>
    obtain ⟨hout, _⟩ := GetAll_spec hInv2 hc2
    rw [hout] at hok
    have hks : ks = (((Get l ctx key now).1.values.filter
        (fun kp => decide (¬ now2 > (derefH (Get l ctx key now).1.heap kp.2).ttl))).map
          Prod.fst) := by
      have := Except.ok.inj hok
      exact (congrArg Prod.fst this).symm
    rw [hks]
    exact not_mem_filter_keys_of_mapGet_none hnone _

/-- C3 exercised concretely: key `k` stored with expiry `5` and read at time
`10` is reported absent, evicted, and missing from a later `GetAll`. -/
theorem claim_C3_witness :
    Inv (Put newCache2 ctxLive "k" 42 5 0).1 [0] ∧
    (Get (Put newCache2 ctxLive "k" 42 5 0).1 ctxLive "k" 10).2 =
      .error .keyDoesNotExist ∧
    mapGet (Get (Put newCache2 ctxLive "k" 42 5 0).1 ctxLive "k" 10).1.values
      "k" = none ∧
    Inv (Get (Put newCache2 ctxLive "k" 42 5 0).1 ctxLive "k" 10).1 [] ∧
    (0 : Nat) ∉ ([] : List Nat) ∧
    (∀ (ctx2 : Ctx) (now2 : Int) (ks : List String) (vs : List Int),
      (GetAll (Get (Put newCache2 ctxLive "k" 42 5 0).1 ctxLive "k" 10).1
          ctx2 now2).2 = .ok (ks, vs) →
      "k" ∉ ks) := by
  have hInv1 : Inv (Put newCache2 ctxLive "k" 42 5 0).1 [0] := by
    refine ⟨?_, ?_, ?_, ?_, ?_, ?_, ?_, ?_, ?_, ?_, ?_⟩ <;> decide
  have hget1 : mapGet (Put newCache2 ctxLive "k" 42 5 0).1.values "k" = some 0 := by
    decide
  have hexp1 : (10 : Int) >
      (derefH (Put newCache2 ctxLive "k" 42 5 0).1.heap 0).ttl := by
    decide
  have hps1 : [0] = [] ++ 0 :: ([] : List Nat) := rfl
  have hctx1 : ctxLive.done2 = false := rfl
  have hmain := claim_C3 hInv1 hctx1 hget1 hexp1 hps1
  exact ⟨hInv1, hmain.1, hmain.2.1, hmain.2.2.1, hmain.2.2.2.1, hmain.2.2.2.2⟩

/-- C4 refuted: the source checks the context only once per operation (`Put`
before taking the mutex, the others after), never twice.  A context whose
signal is untriggered at `Put`'s single pre-lock check but triggered from the
moment the lock is held is not seen: the `Put` succeeds and mutates the
cache instead of aborting. -/
theorem claim_C4_counterexample :
    (Put newCache2 ⟨false, true⟩ "k" 1 10 0).2 = .ok () ∧
    (Put newCache2 ⟨false, true⟩ "k" 1 10 0).1 ≠ newCache2 := by
  refine ⟨rfl, ?_⟩
  decide

/-- C4 as the code has it: each operation checks the caller's context exactly
once — `Put` before acquiring the lock, the four others after acquiring it —
and an already-cancelled context makes that operation return the context
error with the state unchanged. -/
theorem claim_C4 [Inhabited Val] (l : LRUCache Val) (ctx : Ctx) (key : String)
    (value : Val) (ttl now : Int) :
    (ctx.done1 = true → Put l ctx key value ttl now = (l, .error .contextDone)) ∧
    (ctx.done2 = true →
      Get l ctx key now = (l, .error .contextDone) ∧
      GetAll l ctx now = (l, .error .contextDone) ∧
      Evict l ctx key = (l, .error .contextDone) ∧
      EvictAll l ctx = (l, .error .contextDone)) := by
  constructor
  · intro h1
    simp [Put, h1]
  · intro h2
    refine ⟨?_, ?_, ?_, ?_⟩ <;> simp [Get, GetAll, Evict, EvictAll, h2]

/-- C4 (amended) exercised concretely on a cancelled context. -/
theorem claim_C4_witness :
    Put newCache2 ⟨true, true⟩ "k" 1 10 0 = (newCache2, .error .contextDone) ∧
    Get newCache2 ⟨true, true⟩ "k" 0 = (newCache2, .error .contextDone) ∧
    GetAll newCache2 ⟨true, true⟩ 0 = (newCache2, .error .contextDone) ∧
    Evict newCache2 ⟨true, true⟩ "k" = (newCache2, .error .contextDone) ∧
    EvictAll newCache2 ⟨true, true⟩ = (newCache2, .error .contextDone) := by
  have hmain := claim_C4 newCache2 ⟨true, true⟩ "k" 1 10 0
  have h2 := hmain.2 rfl
  exact ⟨hmain.1 rfl, h2.1, h2.2.1, h2.2.2.1, h2.2.2.2⟩


def exAB : LRUCache Int :=
  (Put (Put newCache2 ctxLive "a" 1 5 0).1 ctxLive "b" 2 100 0).1

/-- C5: `GetAll` reports live entries as parallel key/value lists built from
one list of bindings, evicts every expired entry it scans, and leaves the
recency order of the survivors exactly as it was (a scan is not a use). -/
theorem claim_C5 [Inhabited Val] {l : LRUCache Val} {ps : List Nat} {now : Int}
    {ctx : Ctx} (hInv : Inv l ps) (hctx : ctx.done2 = false) :
    ∃ live : List (String × Nat),
      live = l.values.filter
        (fun kp => decide (¬ now > (derefH l.heap kp.2).ttl)) ∧
      (GetAll l ctx now).2 = .ok (live.map Prod.fst,
        live.map (fun kp => (derefH l.heap kp.2).value)) ∧
      (∀ kp ∈ live, mapGet l.values kp.1 = some kp.2 ∧
        ¬ now > (derefH l.heap kp.2).ttl) ∧
      Inv (GetAll l ctx now).1
        (ps.filter (fun q => decide (¬ now > (derefH l.heap q).ttl))) ∧
      (∀ k p, mapGet l.values k = some p → now > (derefH l.heap p).ttl →
        mapGet (GetAll l ctx now).1.values k = none) := by
  obtain ⟨hout, hInv2, hexp, _, _⟩ := GetAll_spec hInv hctx
  refine ⟨_, rfl, hout, ?_, hInv2, hexp⟩
  intro kp hm
  rcases List.mem_filter.mp hm with ⟨hmv, hf⟩
  exact ⟨mapGet_of_mem_distinct hInv.vals_distinct hmv, of_decide_eq_true hf⟩

/-- C5 exercised concretely: scanning at time `50` a cache holding `a`
(expired at `5`) and `b` (live until `100`) returns `([b], [2])`, evicts `a`
and keeps `b`'s recency position. -/
theorem claim_C5_witness :
    Inv exAB [1, 0] ∧ ctxLive.done2 = false ∧
    ∃ live : List (String × Nat),
      live = exAB.values.filter
        (fun kp => decide (¬ (50 : Int) > (derefH exAB.heap kp.2).ttl)) ∧
      (GetAll exAB ctxLive 50).2 = .ok (live.map Prod.fst,
        live.map (fun kp => (derefH exAB.heap kp.2).value)) ∧
      (∀ kp ∈ live, mapGet exAB.values kp.1 = some kp.2 ∧
        ¬ (50 : Int) > (derefH exAB.heap kp.2).ttl) ∧
      Inv (GetAll exAB ctxLive 50).1
        ([1, 0].filter
          (fun q => decide (¬ (50 : Int) > (derefH exAB.heap q).ttl))) ∧
      (∀ k p, mapGet exAB.values k = some p →
        (50 : Int) > (derefH exAB.heap p).ttl →
        mapGet (GetAll exAB ctxLive 50).1.values k = none) := by
  have hInv1 : Inv exAB [1, 0] := by
    refine ⟨?_, ?_, ?_, ?_, ?_, ?_, ?_, ?_, ?_, ?_, ?_⟩ <;> decide
  exact ⟨hInv1, rfl, claim_C5 hInv1 rfl⟩

/-- C6: `Evict` on an absent key fails with `keyDoesNotExist` and changes
nothing; on a present key it returns the stored value, removes the entry from
index and recency list, and decrements the count. -/
theorem claim_C6 [Inhabited Val] {l : LRUCache Val} {ps : List Nat} {ctx : Ctx}
    {key : String} (hInv : Inv l ps) (hctx : ctx.done2 = false) :
    (mapGet l.values key = none →
      Evict l ctx key = (l, .error .keyDoesNotExist)) ∧
    (∀ p xs ys, mapGet l.values key = some p → ps = xs ++ p :: ys →
      (Evict l ctx key).2 = .ok ((derefH l.heap p).value) ∧
      mapGet (Evict l ctx key).1.values key = none ∧
      Inv (Evict l ctx key).1 (xs ++ ys) ∧
      p ∉ xs ++ ys ∧
      (Evict l ctx key).1.len + 1 = l.len) := by
  constructor
  · intro hget
    exact evict_absent_spec l hctx hget
  · intro p xs ys hget hps
    obtain ⟨hev, hInv2, hnone, hlen, _⟩ := evict_present_spec hInv hctx hget hps
    have hpnot : p ∉ xs ++ ys := by
      have hnd := hInv.nodup
      rw [hps] at hnd
      rcases List.nodup_append.mp hnd with ⟨_, hpys, hdisj⟩
      intro hc
      rcases List.mem_append.mp hc with hx | hy
      · exact hdisj hx (List.mem_cons_self _ _)
      · exact (List.nodup_cons.mp hpys).1 hy
    exact ⟨by rw [hev], hnone, hInv2, hpnot, hlen⟩

/-- C6 exercised concretely: evicting the missing key `z` is a no-op failure,
evicting the present key `a` returns its value `1` and removes it. -/
theorem claim_C6_witness :
    Inv newCache2 [] ∧ Inv exAB [1, 0] ∧
    Evict newCache2 ctxLive "z" = (newCache2, .error .keyDoesNotExist) ∧
    (Evict exAB ctxLive "a").2 = .ok ((derefH exAB.heap 0).value) ∧
    mapGet (Evict exAB ctxLive "a").1.values "a" = none ∧
    Inv (Evict exAB ctxLive "a").1 ([1] ++ []) ∧
    (0 : Nat) ∉ [1] ++ ([] : List Nat) ∧
    (Evict exAB ctxLive "a").1.len + 1 = exAB.len := by
  have hInv0 : Inv newCache2 [] := by
    refine ⟨?_, ?_, ?_, ?_, ?_, ?_, ?_, ?_, ?_, ?_, ?_⟩ <;> decide
  have hInv1 : Inv exAB [1, 0] := by
    refine ⟨?_, ?_, ?_, ?_, ?_, ?_, ?_, ?_, ?_, ?_, ?_⟩ <;> decide
  have hctx1 : ctxLive.done2 = false := rfl
  have habs : mapGet newCache2.values "z" = none := rfl
  have hget1 : mapGet exAB.values "a" = some 0 := by decide
  have hps1 : [1, 0] = [1] ++ 0 :: ([] : List Nat) := rfl
  have h1 := (claim_C6 hInv0 hctx1).1 habs
  have h2 := (claim_C6 hInv1 hctx1).2 0 [1] [] hget1 hps1
  exact ⟨hInv0, hInv1, h1, h2.1, h2.2.1, h2.2.2.1, h2.2.2.2.1, h2.2.2.2.2⟩

/-- C7: `New` with capacity `0` fails with `invalidCacheSize`; with any
capacity `≥ 1` it returns an empty cache (zero count, empty index, empty
recency walk) carrying the given capacity and default TTL. -/
theorem claim_C7 (Val : Type) [Inhabited Val] (cacheSize : Nat) (ttl : Int) :
    (cacheSize = 0 → New Val cacheSize ttl = .error .invalidCacheSize) ∧
    (0 < cacheSize → cacheSize < wordSize →
      ∃ l, New Val cacheSize ttl = .ok l ∧ Inv l [] ∧ l.cap = cacheSize ∧
        l.defaultTTL = ttl ∧ l.len = 0 ∧ l.values = [] ∧ l.most = none ∧
        l.least = none ∧ walkList l = []) := by
  constructor
  · intro h0
    rw [New, if_pos h0]
  · intro hpos hlt
    have hspec : ∃ l : LRUCache Val, New Val cacheSize ttl = .ok l ∧
        Inv l [] ∧ l.cap = cacheSize ∧ l.defaultTTL = ttl ∧ l.len = 0 ∧
        l.values = [] ∧ l.most = none ∧ l.least = none :=
      New_spec Val hpos hlt
    obtain ⟨l, hok, hInv, hcap, httl, hlen, hvals, hmost, hleast⟩ := hspec
    exact ⟨l, hok, hInv, hcap, httl, hlen, hvals, hmost, hleast,
      walkList_eq hInv⟩

/-- C7 exercised concretely at capacities `0` and `2`. -/
theorem claim_C7_witness :
    New Int 0 60 = .error .invalidCacheSize ∧
    (∃ l, New Int 2 60 = .ok l ∧ Inv l [] ∧ l.cap = 2 ∧
      l.defaultTTL = 60 ∧ l.len = 0 ∧ l.values = [] ∧ l.most = none ∧
      l.least = none ∧ walkList l = []) := by
  refine ⟨(claim_C7 Int 0 60).1 rfl, (claim_C7 Int 2 60).2 ?_ ?_⟩
  · decide
  · decide

/-- C8: every reachable state keeps count, recency-walk length and index size
in lock-step, bounded by the capacity, with `most`/`least` nil exactly when
the cache is empty. -/
theorem claim_C8 [Inhabited Val] {l : LRUCache Val} (h : Reachable l) :
    ∃ ps, Inv l ps ∧ walkList l = ps ∧ (walkList l).length = l.len ∧
      l.values.length = l.len ∧ l.len ≤ l.cap ∧
      ((l.most = none ∧ l.least = none) ↔ l.len = 0) := by
  obtain ⟨ps, hInv⟩ := reachable_inv h
  have hwalk := walkList_eq hInv
  refine ⟨ps, hInv, hwalk, ?_, ?_, hInv.len_le, ?_, ?_⟩
  · rw [hwalk, hInv.len_eq]
  · rw [hInv.vals_len, hInv.len_eq]
  · rintro ⟨hm, _⟩
    rw [hInv.most_eq] at hm
    have hnil : ps = [] := List.head?_eq_none_iff.mp hm
    rw [hInv.len_eq, hnil]
    rfl
  · intro h0
    have hnil : ps = [] := by
      have hpl := hInv.len_eq
      rw [h0] at hpl
      exact List.eq_nil_of_length_eq_zero hpl.symm
    constructor
    · rw [hInv.most_eq, hnil]
      rfl
    · rw [hInv.least_eq, hnil]
      rfl

/-- C8 exercised concretely on a reachable two-entry state. -/
theorem claim_C8_witness :
    Reachable exAB ∧
    ∃ ps, Inv exAB ps ∧ walkList exAB = ps ∧
      (walkList exAB).length = exAB.len ∧ exAB.values.length = exAB.len ∧
      exAB.len ≤ exAB.cap ∧
      ((exAB.most = none ∧ exAB.least = none) ↔ exAB.len = 0) := by
  have h0 : Reachable newCache2 :=
    Reachable.new 2 60 newCache2 (by decide) rfl
  have h1 : Reachable (Put newCache2 ctxLive "a" 1 5 0).1 :=
    Reachable.put newCache2 ctxLive "a" 1 5 0 h0
  have h2 : Reachable exAB :=
    Reachable.put (Put newCache2 ctxLive "a" 1 5 0).1 ctxLive "b" 2 100 0 h1
  exact ⟨h2, claim_C8 h2⟩

/-- C9: `Evict` performs no expiry check — on a present but already expired
key it still succeeds and returns the stale value, while `Get` on the same
key at the same moment reports `keyDoesNotExist`. -/
theorem claim_C9 [Inhabited Val] {l : LRUCache Val} {ps xs ys : List Nat}
    {p : Nat} {key : String} {now : Int} {ctx : Ctx}
    (hInv : Inv l ps) (hctx : ctx.done2 = false)
    (hget : mapGet l.values key = some p)
    (hexp : now > (derefH l.heap p).ttl) (hps : ps = xs ++ p :: ys) :
    (Evict l ctx key).2 = .ok ((derefH l.heap p).value) ∧
    (Get l ctx key now).2 = .error .keyDoesNotExist := by
  obtain ⟨hev, _⟩ := evict_present_spec hInv hctx hget hps
  obtain ⟨hev2, _⟩ := get_expired_spec hInv hctx hget hexp hps
  exact ⟨by rw [hev], by rw [hev2]⟩

/-- C9 exercised concretely: key `k` expired at `5`, inspected at `10`. -/
theorem claim_C9_witness :
    Inv (Put newCache2 ctxLive "k" 42 5 0).1 [0] ∧
    (Evict (Put newCache2 ctxLive "k" 42 5 0).1 ctxLive "k").2 =
      .ok ((derefH (Put newCache2 ctxLive "k" 42 5 0).1.heap 0).value) ∧
    (Get (Put newCache2 ctxLive "k" 42 5 0).1 ctxLive "k" 10).2 =
      .error .keyDoesNotExist := by
  have hInv1 : Inv (Put newCache2 ctxLive "k" 42 5 0).1 [0] := by
    refine ⟨?_, ?_, ?_, ?_, ?_, ?_, ?_, ?_, ?_, ?_, ?_⟩ <;> decide
  have hctx1 : ctxLive.done2 = false := rfl
  have hget1 : mapGet (Put newCache2 ctxLive "k" 42 5 0).1.values "k" =
      some 0 := by
    decide
  have hexp1 : (10 : Int) >
      (derefH (Put newCache2 ctxLive "k" 42 5 0).1.heap 0).ttl := by
    decide
  have hps1 : [0] = [] ++ 0 :: ([] : List Nat) := rfl
  have hmain := claim_C9 hInv1 hctx1 hget1 hexp1 hps1
  exact ⟨hInv1, hmain.1, hmain.2⟩

/-- C10: the service-layer `EvictAll` calls itself instead of the cache, so
no amount of fuel makes it produce a result — it never terminates and never
reaches the engine. -/
theorem claim_C10 {Val : Type} (c : LRUCache Val) (ctx : Ctx) :
    ∀ fuel, serviceEvictAll c ctx fuel = none := by
  intro fuel
  induction fuel with
  | zero => rfl
  | succ n ih => exact ih

end LruApi
